import Mathlib

/-!
Shallow embedding of the Orbit profiler's `TimeGraph` orchestrator
(`src/OrbitGl/TimeGraph.cpp`) and the collaborator behaviour it relies on.
Machine integers (`TickType` = `uint64_t`, thread ids, hashes) are modelled
as `Nat`; `double`/`float` viewport arithmetic is modelled over `ℚ`.
`std::map` members are modelled as key-sorted association lists,
`std::vector` members as lists, and the `shared_ptr` track objects as an
arena (`store`) of id-keyed track records, so that pointer identity becomes
id equality.
-/

/-- The largest `uint64_t` value, `std::numeric_limits<TickType>::max()`. -/
def UINT64MAX : Nat := 2 ^ 64 - 1

/-- `Timer::Type`: the record kinds `TimeGraph::ProcessTimer` distinguishes
(`CORE_ACTIVITY`, `GPU_ACTIVITY`, `INTROSPECTION`, everything else). -/
inductive TimerType where
  | regular
  | coreActivity
  | gpuActivity
  | introspection
deriving DecidableEq, Repr

/-- A `Timer` record: start/end ticks, thread id, processor, function
address, type, and the user-data slot 1 that carries a GPU timeline hash
(`TimeGraph::GetGpuTimelineHash`). -/
structure Timer where
  m_Start : Nat
  m_End : Nat
  m_TID : Nat
  m_Processor : Nat
  m_FunctionAddress : Nat
  m_UserData1 : Nat
  m_Type : TimerType
deriving DecidableEq, Repr

/-- A `CallstackEvent`: {time tick, thread id, callstack id}. -/
structure CallstackEvent where
  m_Time : Nat
  m_TID : Nat
  m_Id : Nat
deriving DecidableEq, Repr

/-- Modelled from the spec: a Track's observable state — its owned record
sequence (appended by `OnTimer`) and display name/label.  The Track variant
sources are not part of the repository snapshot; the spec gives the
capability set {OnTimer = append, GetNumTimers, IsEmpty, GetMinTime,
name/label}. -/
structure TrackE where
  timers : List Timer
  name : String
  label : String
deriving DecidableEq, Repr

/-- The empty string (fallback used by `value_or("")`). -/
def emptyStr : String := ""

/-- A freshly constructed track: no timers, empty name and label. -/
def freshTrack : TrackE := { timers := [], name := emptyStr, label := emptyStr }

/-- First-match lookup in an association list (`std::map::find` /
`operator[]` read). -/
def mapLookup {α : Type} : List (Nat × α) → Nat → Option α
  | [], _ => none
  | p :: rest, k => if p.1 = k then some p.2 else mapLookup rest k

/-- Key-ordered insert-or-replace, the `std::map` write `m[k] = v`. -/
def mapInsert {α : Type} (k : Nat) (v : α) : List (Nat × α) → List (Nat × α)
  | [] => [(k, v)]
  | p :: rest =>
    if k < p.1 then (k, v) :: p :: rest
    else if k = p.1 then (k, v) :: rest
    else p :: mapInsert k v rest

/-- The increment `++m[k]` on a `std::map<K, uint32_t>`: value-initialise
to 0 when absent, then add one. -/
def mapIncr (m : List (Nat × Nat)) (k : Nat) : List (Nat × Nat) :=
  mapInsert k ((mapLookup m k).getD 0 + 1) m

/-- Key-ordered duplicate-free insert, the `std::set::insert`. -/
def setInsert (k : Nat) : List Nat → List Nat
  | [] => [k]
  | a :: rest =>
    if k < a then k :: a :: rest
    else if k = a then a :: rest
    else a :: setInsert k rest

/-- The full mutable state of a `TimeGraph`, together with the global
collaborator state it reads and writes (`GEventTracer`'s event buffer,
`Capture::GFunctionCountMap`, `Capture::GHasContextSwitches`, the string
manager table, the sampling-profiler callstack store, and the reports
handed to `GOrbitApp->AddSelectionReport`). -/
structure TimeGraphE where
  nextId : Nat
  store : List (Nat × TrackE)
  tracks : List Nat
  scheduler_track : Option Nat
  process_track : Option Nat
  thread_tracks : List (Nat × Nat)
  gpu_tracks : List (Nat × Nat)
  cores_seen : List Nat
  m_ThreadCountMap : List (Nat × Nat)
  m_EventCount : List (Nat × Nat)
  capture_min_timestamp : Nat
  capture_max_timestamp : Nat
  m_ThreadFilter : String
  sorted_tracks : List Nat
  eventBuffer : List CallstackEvent
  stringTable : List (Nat × String)
  funcKnown : List Nat
  functionCountMap : List (Nat × Nat)
  hasContextSwitches : Bool
  callstackTable : List (Nat × List Nat)
  selectionReports : List Nat
  selected_per_thread : List (Nat × List CallstackEvent)
  m_MinTimeUs : ℚ
  m_MaxTimeUs : ℚ
  m_TimeWindowUs : ℚ
  m_WorldStartX : ℚ
  m_WorldWidth : ℚ
  m_RefTimeUs : ℚ
  m_ZoomValue : ℚ
  m_MouseRatio : ℚ
  tickScale : ℚ
  m_NeedsUpdatePrimitives : Bool
  m_NeedsRedraw : Bool
deriving DecidableEq, Repr

/-- A `TimeGraph` before its constructor body runs: every container empty,
`capture_min_timestamp_` at `uint64` max and `capture_max_timestamp_` at 0
(the values `Clear()` resets them to). -/
def baseTG : TimeGraphE where
  nextId := 0
  store := []
  tracks := []
  scheduler_track := none
  process_track := none
  thread_tracks := []
  gpu_tracks := []
  cores_seen := []
  m_ThreadCountMap := []
  m_EventCount := []
  capture_min_timestamp := UINT64MAX
  capture_max_timestamp := 0
  m_ThreadFilter := emptyStr
  sorted_tracks := []
  eventBuffer := []
  stringTable := []
  funcKnown := []
  functionCountMap := []
  hasContextSwitches := false
  callstackTable := []
  selectionReports := []
  selected_per_thread := []
  m_MinTimeUs := 0
  m_MaxTimeUs := 0
  m_TimeWindowUs := 0
  m_WorldStartX := 0
  m_WorldWidth := 0
  m_RefTimeUs := 0
  m_ZoomValue := 0
  m_MouseRatio := 0
  tickScale := 1
  m_NeedsUpdatePrimitives := false
  m_NeedsRedraw := false

/-- `TimeGraph::GetOrCreateSchedulerTrack`: return the existing scheduler
track, or create one, push it onto `tracks_` and remember it. -/
def getOrCreateSchedulerTrack (s : TimeGraphE) : Nat × TimeGraphE :=
  match s.scheduler_track with
  | some id => (id, s)
  | none =>
    let id := s.nextId
    (id, { s with
      nextId := id + 1
      store := s.store ++ [(id, freshTrack)]
      tracks := s.tracks ++ [id]
      scheduler_track := some id })

/-- `TimeGraph::GetOrCreateThreadTrack(tid)`: return the track registered
for `tid` in `thread_tracks_`, or create one, push it onto `tracks_` and
register it.  (The event-track colour assignment is presentation-only and
not modelled.) -/
def getOrCreateThreadTrack (s : TimeGraphE) (tid : Nat) : Nat × TimeGraphE :=
  match mapLookup s.thread_tracks tid with
  | some id => (id, s)
  | none =>
    let id := s.nextId
    (id, { s with
      nextId := id + 1
      store := s.store ++ [(id, freshTrack)]
      tracks := s.tracks ++ [id]
      thread_tracks := mapInsert tid id s.thread_tracks })

/-- `TimeGraph::GetOrCreateGpuTrack(timeline_hash)`: return the track
registered for the hash in `gpu_tracks_`, or create one, push it onto
`tracks_` and register it. -/
def getOrCreateGpuTrack (s : TimeGraphE) (h : Nat) : Nat × TimeGraphE :=
  match mapLookup s.gpu_tracks h with
  | some id => (id, s)
  | none =>
    let id := s.nextId
    (id, { s with
      nextId := id + 1
      store := s.store ++ [(id, freshTrack)]
      tracks := s.tracks ++ [id]
      gpu_tracks := mapInsert h id s.gpu_tracks })

/-- `TimeGraph::TimeGraph()`: create the scheduler track, then the process
track as the special thread track of id 0. -/
def mkTimeGraph : TimeGraphE :=
  let s := (getOrCreateSchedulerTrack baseTG).2
  let p := getOrCreateThreadTrack s 0
  { p.2 with process_track := some p.1 }

/-- `TimeGraph::Clear()`: reset timestamps, thread counts and the event
buffer, empty every track container, then recreate the scheduler track and
the id-0 process track.  (`m_Batcher.Reset()` is rendering-only and not
modelled.) -/
def clearTG (s : TimeGraphE) : TimeGraphE :=
  let s := { s with
    capture_min_timestamp := UINT64MAX
    capture_max_timestamp := 0
    m_ThreadCountMap := []
    eventBuffer := []
    tracks := []
    store := []
    scheduler_track := none
    thread_tracks := []
    gpu_tracks := []
    cores_seen := [] }
  let s := (getOrCreateSchedulerTrack s).2
  let p := getOrCreateThreadTrack s 0
  { p.2 with process_track := some p.1 }

/-- Read a track's record list out of the arena (absent id reads as no
records; in C++ the pointer is always valid). -/
def trackTimers (s : TimeGraphE) (id : Nat) : List Timer :=
  ((mapLookup s.store id).map TrackE.timers).getD []

/-- Update one track object in the arena. -/
def storeUpdate (store : List (Nat × TrackE)) (id : Nat) (f : TrackE → TrackE) :
    List (Nat × TrackE) :=
  store.map fun p => if p.1 = id then (p.1, f p.2) else p

/-- Modelled from the spec: `Track::OnTimer(record)` appends the record to
the track's owned chain (the Track variant sources are outside the
snapshot; the spec states "OnTimer(record) (append + update min/max +
function counters)"). -/
def trackOnTimer (s : TimeGraphE) (id : Nat) (t : Timer) : TimeGraphE :=
  { s with store := storeUpdate s.store id fun tr => { tr with timers := tr.timers ++ [t] } }

/-- Set a track's display name and label (`SetName`/`SetLabel`). -/
def trackSetNameLabel (s : TimeGraphE) (id : Nat) (nm : String) : TimeGraphE :=
  { s with store := storeUpdate s.store id fun tr => { tr with name := nm, label := nm } }

/-- `TimeGraph::UpdateMaxTimeStamp(a_Time)` and the identical opening of
`ProcessTimer`: raise `capture_max_timestamp_` when the new time exceeds
it. -/
def updateMaxTimeStamp (s : TimeGraphE) (time : Nat) : TimeGraphE :=
  if s.capture_max_timestamp < time
    then { s with capture_max_timestamp := time } else s

/-- The middle of `ProcessTimer`: flag context switches on core activity,
and bump the global per-function hit counter when the function address is
positive and resolves in the target process. -/
def flagAndCount (s : TimeGraphE) (t : Timer) : TimeGraphE :=
  let s := match t.m_Type with
    | TimerType.coreActivity => { s with hasContextSwitches := true }
    | _ => s
  if 0 < t.m_FunctionAddress then
    if t.m_FunctionAddress ∈ s.funcKnown then
      { s with functionCountMap := mapIncr s.functionCountMap t.m_FunctionAddress }
    else s
  else s

/-- The routing tail of `ProcessTimer`: GPU activity to its timeline's GPU
track (naming it through the string table), core activity to the scheduler
track (recording the processor id), everything else to the thread track of
its thread id (also counted in `m_ThreadCountMap`). -/
def processTimerRoute (s : TimeGraphE) (t : Timer) : TimeGraphE :=
  if t.m_Type = TimerType.gpuActivity then
    let g := getOrCreateGpuTrack s t.m_UserData1
    let nm := (mapLookup g.2.stringTable t.m_UserData1).getD emptyStr
    trackOnTimer (trackSetNameLabel g.2 g.1 nm) g.1 t
  else
    let p := getOrCreateThreadTrack s t.m_TID
    if t.m_Type ≠ TimerType.coreActivity then
      let s := trackOnTimer p.2 p.1 t
      { s with m_ThreadCountMap := mapIncr s.m_ThreadCountMap t.m_TID }
    else
      match p.2.scheduler_track with
      | some sid =>
        let s := trackOnTimer p.2 sid t
        { s with cores_seen := setInsert t.m_Processor s.cores_seen }
      | none => p.2

/-- `TimeGraph::ProcessTimer(a_Timer)` (lines 287-330): the three stages in
source order — raise the global max timestamp, flag/count, route. -/
def processTimer (s : TimeGraphE) (t : Timer) : TimeGraphE :=
  processTimerRoute (flagAndCount (updateMaxTimeStamp s t.m_End) t) t

/-- `TimeGraph::GetNumTimers()`: the sum of `GetNumTimers()` over every
track in `tracks_`. -/
def getNumTimers (s : TimeGraphE) : Nat :=
  (s.tracks.map fun id => (trackTimers s id).length).sum

/-- The total record count held in the arena. -/
def storeSumL (l : List (Nat × TrackE)) : Nat :=
  (l.map fun p => p.2.timers.length).sum

/-- The structural well-formedness `TimeGraph.cpp` maintains: `tracks_`
lists exactly the created track objects in creation order, ids are unique
and below the allocation counter, the scheduler track exists, and every
map entry points at a created track. -/
def TGInv (s : TimeGraphE) : Prop :=
  s.tracks = s.store.map Prod.fst
  ∧ (s.store.map Prod.fst).Nodup
  ∧ (∀ k ∈ s.store.map Prod.fst, k < s.nextId)
  ∧ (∃ sid ∈ s.store.map Prod.fst, s.scheduler_track = some sid)
  ∧ (∀ p ∈ s.thread_tracks, p.2 ∈ s.store.map Prod.fst)
  ∧ (∀ p ∈ s.gpu_tracks, p.2 ∈ s.store.map Prod.fst)

instance (s : TimeGraphE) : Decidable (TGInv s) := by
  unfold TGInv
  infer_instance

/-- The whole ingestion of a record sequence, one `ProcessTimer` call per
record in order. -/
def processAll (s : TimeGraphE) (ts : List Timer) : TimeGraphE :=
  ts.foldl processTimer s

/-- Modelled from the spec: the tick→microsecond conversion
`us = (tick − capture_min_tick) × tick_scale` (the converter's source is
outside the snapshot). -/
def microSecondsFromTicks (scale : ℚ) (a b : Nat) : ℚ :=
  ((b : ℚ) - (a : ℚ)) * scale

/-- Modelled from the spec: the inverse microsecond→tick conversion,
truncating to a whole tick count. -/
def ticksFromMicroseconds (scale us : ℚ) : Int :=
  ⌊us / scale⌋

/-- Modelled from the spec: the event buffer's minimum event time
(`EventBuffer::GetMinTime`). -/
def ebMinTime (events : List CallstackEvent) : Nat :=
  (events.map CallstackEvent.m_Time).foldl min UINT64MAX

/-- Modelled from the spec: the event buffer's maximum event time
(`EventBuffer::GetMaxTime`). -/
def ebMaxTime (events : List CallstackEvent) : Nat :=
  (events.map CallstackEvent.m_Time).foldl max 0

/-- Modelled from the spec: a Track's running min time over its records
(`Track::GetMinTime`). -/
def trackMinTime (s : TimeGraphE) (id : Nat) : Nat :=
  (trackTimers s id).foldl (fun a t => min a t.m_Start) UINT64MAX

/-- `TimeGraph::NeedsUpdate()`. -/
def needsUpdate (s : TimeGraphE) : TimeGraphE :=
  { s with m_NeedsUpdatePrimitives := true, m_NeedsRedraw := true }

/-- `TimeGraph::UpdateCaptureMinMaxTimestamps()`: recompute
`capture_min_timestamp_` from every non-empty track's min time (ignoring
zero minima), fold in the event buffer's min/max when it has events, and
report whether a minimum was found. -/
def updateCaptureMinMaxTimestamps (s : TimeGraphE) : Bool × TimeGraphE :=
  let m := s.tracks.foldl
    (fun acc id =>
      if (trackTimers s id).length ≠ 0 then
        let mn := trackMinTime s id
        if 0 < mn ∧ mn < acc then mn else acc
      else acc) UINT64MAX
  let s := { s with capture_min_timestamp := m }
  let s := if s.eventBuffer ≠ [] then
      { s with
        capture_min_timestamp := min s.capture_min_timestamp (ebMinTime s.eventBuffer),
        capture_max_timestamp := max s.capture_max_timestamp (ebMaxTime s.eventBuffer) }
    else s
  (decide (s.capture_min_timestamp ≠ UINT64MAX), s)

/-- `TimeGraph::GetCaptureTimeSpanUs()`. -/
def getCaptureTimeSpanUs (s : TimeGraphE) : ℚ × TimeGraphE :=
  let r := updateCaptureMinMaxTimestamps s
  if r.1 then
    (microSecondsFromTicks r.2.tickScale r.2.capture_min_timestamp
      r.2.capture_max_timestamp, r.2)
  else (0, r.2)

/-- `TimeGraph::SetMinMax(a_MinTimeUs, a_MaxTimeUs)`: clamp the window to
`[0, capture span]` keeping the desired width where possible. -/
def setMinMax (s : TimeGraphE) (aMinTimeUs aMaxTimeUs : ℚ) : TimeGraphE :=
  let desired := aMaxTimeUs - aMinTimeUs
  let s := { s with m_MinTimeUs := max aMinTimeUs 0 }
  let r := getCaptureTimeSpanUs s
  let s := { r.2 with m_MaxTimeUs := min (r.2.m_MinTimeUs + desired) r.1 }
  needsUpdate s

/-- `TimeGraph::ZoomTime(a_ZoomValue, a_MouseRatio)`: remember the zoom
parameters, compute the reference time at the mouse ratio, scale the
clamped left/right remainders by `1 ± 0.1`, and either bail out when the
recombined window is under one nanosecond or apply the new window. -/
def zoomTime (s : TimeGraphE) (aZoomValue aMouseRatio : ℚ) : TimeGraphE :=
  let s := { s with m_ZoomValue := aZoomValue, m_MouseRatio := aMouseRatio }
  let scale : ℚ := if 0 < aZoomValue then 1 + 1/10 else 1 - 1/10
  let window := s.m_MaxTimeUs - s.m_MinTimeUs
  let refT := s.m_MinTimeUs + aMouseRatio * window
  let s := { s with m_RefTimeUs := refT }
  let timeLeft := max (refT - s.m_MinTimeUs) 0
  let timeRight := max (s.m_MaxTimeUs - refT) 0
  let minT := refT - scale * timeLeft
  let maxT := refT + scale * timeRight
  if maxT - minT < 1/1000 then s else setMinMax s minT maxT

/-- `TimeGraph::GetTime(a_Ratio)`. -/
def getTime (s : TimeGraphE) (ratio : ℚ) : ℚ :=
  s.m_MinTimeUs + ratio * (s.m_MaxTimeUs - s.m_MinTimeUs)

/-- `TimeGraph::GetWorldFromTick(a_Time)`: guard against a zero (or
negative) time window, else map the normalized window offset into world
x coordinates. -/
def getWorldFromTick (s : TimeGraphE) (time : Nat) : ℚ :=
  if 0 < s.m_TimeWindowUs then
    s.m_WorldStartX
      + ((microSecondsFromTicks s.tickScale s.capture_min_timestamp time - s.m_MinTimeUs)
          / s.m_TimeWindowUs) * s.m_WorldWidth
  else 0

/-- `TimeGraph::GetTickFromWorld(a_WorldX)`: ratio 0 when the world width
is zero, else the normalized offset; then convert back through the window
and the tick scale. -/
def getTickFromWorld (s : TimeGraphE) (aWorldX : ℚ) : Int :=
  let ratio : ℚ :=
    if s.m_WorldWidth ≠ 0 then (aWorldX - s.m_WorldStartX) / s.m_WorldWidth else 0
  (s.capture_min_timestamp : Int) + ticksFromMicroseconds s.tickScale (getTime s ratio)

/-- Modelled from the spec: `EventBuffer::GetCallstackEvents(t0, t1, tid)`
— the sample events of the given thread (0 meaning all threads) inside
the tick range (the event buffer's source is outside the snapshot). -/
def getCallstackEvents (events : List CallstackEvent) (t0 t1 : Int) (tid : Nat) :
    List CallstackEvent :=
  events.filter fun e =>
    decide ((tid = 0 ∨ e.m_TID = tid) ∧ t0 ≤ (e.m_Time : Int) ∧ (e.m_Time : Int) ≤ t1)

/-- One `selected_callstack_events_per_thread_[k].emplace_back(event)`. -/
def perThreadAppend (m : List (Nat × List CallstackEvent)) (k : Nat)
    (e : CallstackEvent) : List (Nat × List CallstackEvent) :=
  mapInsert k ((mapLookup m k).getD [] ++ [e]) m

/-- The body of `TimeGraph::SelectEvents` on already-normalized bounds:
convert to ticks, query the buffer, rebuild the per-thread selection
buckets, and publish an aggregated report exactly when the sampling pass
found samples.  The sampling profiler is modelled from the spec: each
selected event whose callstack id resolves in the content-addressed store
contributes one sample, and the report is published when the sample count
is positive (`GetNumSamples() > 0`). -/
def selectEventsAt (s : TimeGraphE) (b : ℚ × ℚ) (tid : Nat) :
    List CallstackEvent × TimeGraphE :=
  let t0 := getTickFromWorld s b.1
  let t1 := getTickFromWorld s b.2
  let sel := getCallstackEvents s.eventBuffer t0 t1 tid
  let m := sel.foldl (fun acc e => perThreadAppend (perThreadAppend acc e.m_TID e) 0 e) []
  let s := { s with selected_per_thread := m }
  let numSamples := (sel.filter fun e => (mapLookup s.callstackTable e.m_Id).isSome).length
  let s := if 0 < numSamples
    then { s with selectionReports := s.selectionReports ++ [numSamples] }
    else s
  (sel, needsUpdate s)

/-- `TimeGraph::SelectEvents(a_WorldStart, a_WorldEnd, a_TID)`: swap the
bounds when inverted, then run the selection body. -/
def selectEvents (s : TimeGraphE) (aWorldStart aWorldEnd : ℚ) (tid : Nat) :
    List CallstackEvent × TimeGraphE :=
  selectEventsAt s
    (if aWorldEnd < aWorldStart then (aWorldEnd, aWorldStart) else (aWorldStart, aWorldEnd))
    tid

/-- A concrete viewport state for exercising `ZoomTime`: window [0, 10]. -/
def zoomWitnessTG : TimeGraphE := { baseTG with m_MaxTimeUs := 10 }

/-- A state with a zero time window but a nonzero world width. -/
def zeroWindowTG : TimeGraphE := { baseTG with m_WorldWidth := 4 }

/-- A state with a zero world width but a nonzero time window. -/
def zeroWidthTG : TimeGraphE := { baseTG with m_TimeWindowUs := 7 }

/-- Modelled from the spec: a `TimerBlock` — a run of records plus its
cached `[min, max]` time range used for pruning (the TimerChain sources
are outside the snapshot). -/
structure TimerBlockE where
  boxes : List Timer
  minT : Nat
  maxT : Nat
deriving DecidableEq, Repr

/-- Modelled from the spec: `TimerBlock::Intersects(min, max)` — O(1)
comparison of the query range against the cached block range. -/
def blockIntersects (b : TimerBlockE) (t0 t1 : Nat) : Bool :=
  decide (t0 ≤ b.maxT) && decide (b.minT ≤ t1)

/-- The cached block range really bounds the block's records, and each
record is well-ordered (`m_Start ≤ m_End`). -/
def blockWF (b : TimerBlockE) : Prop :=
  ∀ box ∈ b.boxes, b.minT ≤ box.m_Start ∧ box.m_End ≤ b.maxT ∧ box.m_Start ≤ box.m_End

def chainsWF (chains : List (List TimerBlockE)) : Prop :=
  ∀ chain ∈ chains, ∀ b ∈ chain, blockWF b

instance (b : TimerBlockE) : Decidable (blockWF b) := by
  unfold blockWF
  infer_instance

instance (chains : List (List TimerBlockE)) : Decidable (chainsWF chains) := by
  unfold chainsWF
  infer_instance

/-- The inner-loop body of `TimeGraph::FindPreviousFunctionCall`: keep the
box when its function address matches, its end time is strictly before the
reference, and it beats the best end time so far. -/
def fpcBox (addr t : Nat) (acc : Option Timer × Nat) (box : Timer) :
    Option Timer × Nat :=
  if box.m_FunctionAddress = addr ∧ box.m_End < t ∧ acc.2 < box.m_End
  then (some box, box.m_End) else acc

/-- The block loop of `FindPreviousFunctionCall`: scan a block only when
`Intersects(previous_box_time, current_time)` holds. -/
def fpcBlock (addr t : Nat) (acc : Option Timer × Nat) (b : TimerBlockE) :
    Option Timer × Nat :=
  if blockIntersects b acc.2 t
  then b.boxes.foldl (fpcBox addr t) acc
  else acc

/-- `TimeGraph::FindPreviousFunctionCall(function_address, current_time)`:
fold over every thread track's chains, starting from no box and
`previous_box_time = lowest() = 0`. -/
def findPreviousFunctionCall (chains : List (List TimerBlockE)) (addr t : Nat) :
    Option Timer :=
  (chains.foldl (fun acc chain => chain.foldl (fpcBlock addr t) acc) (none, 0)).1

/-- The inner-loop body of `TimeGraph::FindNextFunctionCall`: keep the box
when its function address matches, its end time is strictly after the
reference, and it beats the best (smallest) end time so far. -/
def fncBox (addr t : Nat) (acc : Option Timer × Nat) (box : Timer) :
    Option Timer × Nat :=
  if box.m_FunctionAddress = addr ∧ t < box.m_End ∧ box.m_End < acc.2
  then (some box, box.m_End) else acc

/-- The block loop of `FindNextFunctionCall`: scan a block only when
`Intersects(current_time, next_box_time)` holds. -/
def fncBlock (addr t : Nat) (acc : Option Timer × Nat) (b : TimerBlockE) :
    Option Timer × Nat :=
  if blockIntersects b t acc.2
  then b.boxes.foldl (fncBox addr t) acc
  else acc

/-- `TimeGraph::FindNextFunctionCall(function_address, current_time)`:
fold over every thread track's chains, starting from no box and
`next_box_time = max() = UINT64MAX`. -/
def findNextFunctionCall (chains : List (List TimerBlockE)) (addr t : Nat) :
    Option Timer :=
  (chains.foldl (fun acc chain => chain.foldl (fncBlock addr t) acc) (none, UINT64MAX)).1

/-- Soundness invariant of the previous-search accumulator. -/
def AccP (addr t : Nat) (acc : Option Timer × Nat) : Prop :=
  (acc.1 = none → acc.2 = 0)
  ∧ ∀ b : Timer, acc.1 = some b →
      acc.2 = b.m_End ∧ b.m_FunctionAddress = addr ∧ b.m_End < t

/-- Soundness invariant of the next-search accumulator. -/
def AccN (addr t : Nat) (acc : Option Timer × Nat) : Prop :=
  (acc.1 = none → acc.2 = UINT64MAX)
  ∧ ∀ b : Timer, acc.1 = some b →
      acc.2 = b.m_End ∧ b.m_FunctionAddress = addr ∧ t < b.m_End

/-- A two-record chain for exercising the neighbor search: both records
belong to function 42 and end at times 3 and 8. -/
def c4Chains : List (List TimerBlockE) :=
  [[{ boxes := [⟨1, 3, 7, 0, 42, 0, TimerType.regular⟩,
      ⟨4, 8, 7, 0, 42, 0, TimerType.regular⟩], minT := 1, maxT := 8 }]]

/-- The single-space separator of the thread name filter. -/
def spaceStr : String := " "

/-- Whether the needle is a literal leading run of the haystack. -/
def listStartsWith : List Char → List Char → Bool
  | [], _ => true
  | _ :: _, [] => false
  | a :: as, b :: bs => a == b && listStartsWith as bs

/-- Whether the needle occurs contiguously anywhere in the haystack. -/
def hasSub (needle : List Char) : List Char → Bool
  | [] => listStartsWith needle []
  | c :: rest => listStartsWith needle (c :: rest) || hasSub needle rest

/-- `absl::StrContains(haystack, needle)`: substring containment. -/
def strContainsStr (hay tok : String) : Bool :=
  hasSub tok.data hay.data

/-- The space character used as the filter separator. -/
def spaceChar : Char := ' '

/-- Split a character list at every occurrence of `c`, keeping empty
pieces. -/
def splitOnCharList (c : Char) : List Char → List (List Char)
  | [] => [[]]
  | a :: rest =>
    let r := splitOnCharList c rest
    if a == c then [] :: r
    else match r with
      | [] => [[a]]
      | h :: t => (a :: h) :: t

/-- `absl::StrSplit(m_ThreadFilter, ' ')`: split on every single space,
keeping empty tokens. -/
def strTokens (f : String) : List String :=
  (splitOnCharList spaceChar f.data).map String.mk

/-- One stable descending-by-value insertion. -/
def insertByValueDesc (p : Nat × Nat) : List (Nat × Nat) → List (Nat × Nat)
  | [] => [p]
  | q :: rest => if q.2 < p.2 then p :: q :: rest else q :: insertByValueDesc p rest

/-- Modelled from the spec: `OrbitUtils::ReverseValueSort` — the map's
pairs ranked by descending value (`OrbitUtils` is outside the snapshot;
ties keep the map's key order). -/
def reverseValueSort (l : List (Nat × Nat)) : List (Nat × Nat) :=
  l.foldr insertByValueDesc []

/-- Modelled from the spec: the thread ids present in the event buffer's
callstack map, in its key order. -/
def ebTids (events : List CallstackEvent) : List Nat :=
  events.foldl (fun acc e => setInsert e.m_TID acc) []

/-- Modelled from the spec: the number of sampled callstack events of one
thread — the size of the buffer's per-thread time-keyed map, so events at
duplicate times collapse. -/
def ebCount (events : List CallstackEvent) (tid : Nat) : Nat :=
  ((events.filter fun e => decide (e.m_TID = tid)).foldl
    (fun acc e => setInsert e.m_Time acc) []).length

/-- A track's display name, read from the arena. -/
def trackName (s : TimeGraphE) (id : Nat) : String :=
  ((mapLookup s.store id).map TrackE.name).getD emptyStr

/-- Modelled from the spec: `Track::IsEmpty()` — the track holds no
records. -/
def trackIsEmpty (s : TimeGraphE) (id : Nat) : Bool :=
  (trackTimers s id).isEmpty

/-- The opening loop of `TimeGraph::SortTracks` (lines 712-723): rebuild
`m_EventCount` from the event buffer's callstacks and get-or-create a
thread track for every thread id present there. -/
def sortTracksPhase1 (s : TimeGraphE) : TimeGraphE :=
  let tids := ebTids s.eventBuffer
  let s := { s with m_EventCount := tids.map fun tid => (tid, ebCount s.eventBuffer tid) }
  tids.foldl (fun acc tid => (getOrCreateThreadTrack acc tid).2) s

/-- The two ranking buckets of `SortTracks` (lines 727-748): threads with
instrumented calls ranked by descending call count, then threads not in
the call-count map ranked by descending event count, id 0 excluded from
both. -/
def computedThreadIds (s : TimeGraphE) : List Nat :=
  ((reverseValueSort s.m_ThreadCountMap).filter fun p => decide (p.1 ≠ 0)).map Prod.fst
  ++ ((reverseValueSort s.m_EventCount).filter fun p =>
      decide (p.1 ≠ 0) && (mapLookup s.m_ThreadCountMap p.1).isNone).map Prod.fst

/-- The name-filter loop of `SortTracks` (lines 751-764): for each sorted
thread id, look its track up and push the id once per token its display
name contains. -/
def filterThreadIds (s : TimeGraphE) (ids : List Nat) (toks : List String) :
    List Nat × TimeGraphE :=
  ids.foldl
    (fun acc tid =>
      let g := getOrCreateThreadTrack acc.2 tid
      (toks.foldl
        (fun l tok => if strContainsStr (trackName g.2 g.1) tok then l ++ [tid] else l)
        acc.1,
       g.2))
    ([], s)

/-- The display-assembly tail of `SortTracks` (lines 766-789): scheduler
track if non-empty, every gpu track, process track if non-empty, then the
non-empty thread tracks of the given id list. -/
def sortTracksFinish (s : TimeGraphE) (ids : List Nat) : TimeGraphE :=
  let part1 : List Nat := match s.scheduler_track with
    | some sid => if trackIsEmpty s sid then [] else [sid]
    | none => []
  let partGpu := s.gpu_tracks.map Prod.snd
  let part3 : List Nat := match s.process_track with
    | some pid => if trackIsEmpty s pid then [] else [pid]
    | none => []
  let r := ids.foldl
    (fun acc tid =>
      let g := getOrCreateThreadTrack acc.2 tid
      (if trackIsEmpty g.2 g.1 then acc.1 else acc.1 ++ [g.1], g.2))
    ([], s)
  { r.2 with sorted_tracks := part1 ++ partGpu ++ part3 ++ r.1 }

/-- The reorder body of `SortTracks`: rank, optionally name-filter, then
assemble the display order. -/
def sortTracksReorder (s : TimeGraphE) : TimeGraphE :=
  let ids := computedThreadIds s
  let r := if s.m_ThreadFilter ≠ emptyStr
    then filterThreadIds s ids (strTokens s.m_ThreadFilter)
    else (ids, s)
  sortTracksFinish r.2 r.1

/-- `TimeGraph::SortTracks()`: the opening loop always runs; the reorder
body runs when not capturing or more than a second has passed since the
last reorder (`doReorder` stands for that real-time condition). -/
def sortTracks (s : TimeGraphE) (doReorder : Bool) : TimeGraphE :=
  let s := sortTracksPhase1 s
  if doReorder then sortTracksReorder s else s

/-- How a state can evolve from `s` by thread-track creations only: stored
tracks persist unchanged, registered thread tracks stay registered, and
any thread track registered since is still the fresh empty track. -/
def ExtTT (s s2 : TimeGraphE) : Prop :=
  (∀ k v, mapLookup s.store k = some v → mapLookup s2.store k = some v)
  ∧ (∀ tid id, mapLookup s.thread_tracks tid = some id →
      mapLookup s2.thread_tracks tid = some id)
  ∧ (∀ tid id, mapLookup s.thread_tracks tid = none →
      mapLookup s2.thread_tracks tid = some id →
      mapLookup s2.store id = some freshTrack)

/-- The claim's view of one thread id's contribution to the display list:
its registered track id when the track exists and is non-empty, nothing
otherwise. -/
def specContrib (s : TimeGraphE) (tid : Nat) : List Nat :=
  match mapLookup s.thread_tracks tid with
  | some id => if trackIsEmpty s id then [] else [id]
  | none => []

/-- The event-count map the first loop of `SortTracks` computes. -/
def specEventCount (s : TimeGraphE) : List (Nat × Nat) :=
  (ebTids s.eventBuffer).map fun tid => (tid, ebCount s.eventBuffer tid)

/-- The claim's computed thread id list: threads with at least one
instrumented call ranked by descending call count, followed by threads not
in the call-count map ranked by descending sampled-event count, id 0
excluded. -/
def specThreadIds (s : TimeGraphE) : List Nat :=
  ((reverseValueSort s.m_ThreadCountMap).filter fun p => decide (p.1 ≠ 0)).map Prod.fst
  ++ ((reverseValueSort (specEventCount s)).filter fun p =>
      decide (p.1 ≠ 0) && (mapLookup s.m_ThreadCountMap p.1).isNone).map Prod.fst

/-- The claim's display order: scheduler track if non-empty, every gpu
track, the process track (thread id 0) if non-empty, then the non-empty
thread tracks of the computed id list. -/
def displaySpec (s : TimeGraphE) : List Nat :=
  (match s.scheduler_track with
    | some sid => if trackIsEmpty s sid then [] else [sid]
    | none => [])
  ++ s.gpu_tracks.map Prod.snd
  ++ (match s.process_track with
    | some pid => if trackIsEmpty s pid then [] else [pid]
    | none => [])
  ++ (specThreadIds s).flatMap (specContrib s)

/-- A graph that ingested one record for thread 7, for exercising the
sort. -/
def c3WitnessTG : TimeGraphE :=
  processTimer mkTimeGraph ⟨1, 5, 7, 0, 0, 0, TimerType.regular⟩

/-- A track name containing both filter tokens. -/
def abStr : String := "ab"

/-- A two-token name filter. -/
def aSpaceB : String := "a b"

/-- A graph with one busy thread (tid 5, track id 2) whose track is named
"ab", under the name filter "a b". -/
def c7TG : TimeGraphE :=
  { trackSetNameLabel (processTimer mkTimeGraph ⟨1, 2, 5, 0, 0, 0, TimerType.regular⟩)
      2 abStr with
    m_ThreadFilter := aSpaceB }

/-- The display name of a thread id's registered track. -/
def threadTrackName (s : TimeGraphE) (tid : Nat) : String :=
  match mapLookup s.thread_tracks tid with
  | some id => trackName s id
  | none => emptyStr

theorem mapLookup_mapInsert_self {α : Type} (k : Nat) (v : α) (m : List (Nat × α)) :
    mapLookup (mapInsert k v m) k = some v := by
  induction m with
  | nil => simp [mapInsert, mapLookup]
  | cons p rest ih =>
    by_cases h1 : k < p.1
    · simp [mapInsert, h1, mapLookup]
    · by_cases h2 : k = p.1
      · simp [mapInsert, h1, h2, mapLookup]
      · have h3 : ¬ p.1 = k := fun hc => h2 hc.symm
        simp [mapInsert, h1, h2, mapLookup, h3, ih]

/-- C1: `GetOrCreateThreadTrack(tid)` is idempotent — the second call with
the same id returns the same track and leaves the state (hence the track
count) unchanged; a first call on an unseen id grows `tracks_` by exactly
one, and a call on a seen id does not grow it.  The same holds for
`GetOrCreateGpuTrack` per timeline hash. -/
theorem getOrCreate_idempotent_spec (s : TimeGraphE) (tid h : Nat) :
    (getOrCreateThreadTrack (getOrCreateThreadTrack s tid).2 tid
      = ((getOrCreateThreadTrack s tid).1, (getOrCreateThreadTrack s tid).2))
    ∧ (mapLookup s.thread_tracks tid = none →
        (getOrCreateThreadTrack s tid).2.tracks.length = s.tracks.length + 1)
    ∧ (mapLookup s.thread_tracks tid ≠ none →
        (getOrCreateThreadTrack s tid).2.tracks.length = s.tracks.length)
    ∧ (getOrCreateGpuTrack (getOrCreateGpuTrack s h).2 h
      = ((getOrCreateGpuTrack s h).1, (getOrCreateGpuTrack s h).2))
    ∧ (mapLookup s.gpu_tracks h = none →
        (getOrCreateGpuTrack s h).2.tracks.length = s.tracks.length + 1)
    ∧ (mapLookup s.gpu_tracks h ≠ none →
        (getOrCreateGpuTrack s h).2.tracks.length = s.tracks.length) := by
  refine ⟨?_, ?_, ?_, ?_, ?_, ?_⟩
  · cases hl : mapLookup s.thread_tracks tid with
    | some id => simp [getOrCreateThreadTrack, hl]
    | none => simp [getOrCreateThreadTrack, hl, mapLookup_mapInsert_self]
  · intro hl
    simp [getOrCreateThreadTrack, hl]
  · intro hl
    cases hl2 : mapLookup s.thread_tracks tid with
    | some id => simp [getOrCreateThreadTrack, hl2]
    | none => exact absurd hl2 hl
  · cases hl : mapLookup s.gpu_tracks h with
    | some id => simp [getOrCreateGpuTrack, hl]
    | none => simp [getOrCreateGpuTrack, hl, mapLookup_mapInsert_self]
  · intro hl
    simp [getOrCreateGpuTrack, hl]
  · intro hl
    cases hl2 : mapLookup s.gpu_tracks h with
    | some id => simp [getOrCreateGpuTrack, hl2]
    | none => exact absurd hl2 hl

/-- C1 witness: on the freshly constructed graph, thread id 7 and timeline
hash 3 are unseen, and the theorem yields the +1 growth for both. -/
theorem getOrCreate_idempotent_spec_witness :
    (mapLookup mkTimeGraph.thread_tracks 7 = none
      ∧ mapLookup mkTimeGraph.gpu_tracks 3 = none
      ∧ mapLookup mkTimeGraph.thread_tracks 0 ≠ none)
    ∧ ((getOrCreateThreadTrack mkTimeGraph 7).2.tracks.length
        = mkTimeGraph.tracks.length + 1
      ∧ (getOrCreateGpuTrack mkTimeGraph 3).2.tracks.length
        = mkTimeGraph.tracks.length + 1
      ∧ (getOrCreateThreadTrack mkTimeGraph 0).2.tracks.length
        = mkTimeGraph.tracks.length) :=
  ⟨⟨by decide, by decide, by decide⟩,
    (getOrCreate_idempotent_spec mkTimeGraph 7 3).2.1 (by decide),
    (getOrCreate_idempotent_spec mkTimeGraph 3 3).2.2.2.2.1 (by decide),
    (getOrCreate_idempotent_spec mkTimeGraph 0 3).2.2.1 (by decide)⟩

theorem mapLookup_append_some {α : Type} {l l2 : List (Nat × α)} {k : Nat} {v : α}
    (h : mapLookup l k = some v) : mapLookup (l ++ l2) k = some v := by
  induction l with
  | nil => simp [mapLookup] at h
  | cons p rest ih =>
    simp only [mapLookup] at h
    simp only [List.cons_append, mapLookup]
    by_cases hp : p.1 = k
    · rw [if_pos hp] at h ⊢
      exact h
    · rw [if_neg hp] at h ⊢
      exact ih h

theorem mapLookup_append_none {α : Type} {l : List (Nat × α)} {k : Nat}
    (h : mapLookup l k = none) (l2 : List (Nat × α)) :
    mapLookup (l ++ l2) k = mapLookup l2 k := by
  induction l with
  | nil => simp [mapLookup]
  | cons p rest ih =>
    simp only [mapLookup] at h
    simp only [List.cons_append, mapLookup]
    by_cases hp : p.1 = k
    · rw [if_pos hp] at h
      exact absurd h (by simp)
    · rw [if_neg hp] at h ⊢
      exact ih h

theorem mapLookup_some_of_mem_keys {α : Type} {l : List (Nat × α)} {k : Nat}
    (h : k ∈ l.map Prod.fst) : ∃ v, mapLookup l k = some v := by
  induction l with
  | nil => simp at h
  | cons p rest ih =>
    by_cases hp : p.1 = k
    · exact ⟨p.2, by simp [mapLookup, hp]⟩
    · simp only [List.map_cons, List.mem_cons] at h
      rcases h with h | h
      · exact absurd h.symm hp
      · rcases ih h with ⟨v, hv⟩
        exact ⟨v, by simp [mapLookup, hp, hv]⟩

theorem mapLookup_none_of_not_mem {α : Type} {l : List (Nat × α)} {k : Nat}
    (h : k ∉ l.map Prod.fst) : mapLookup l k = none := by
  induction l with
  | nil => simp [mapLookup]
  | cons p rest ih =>
    simp only [List.map_cons, List.mem_cons, not_or] at h
    have hp : ¬ p.1 = k := fun hc => h.1 hc.symm
    simp [mapLookup, hp, ih h.2]

theorem mapLookup_storeUpdate (l : List (Nat × TrackE)) (id : Nat) (f : TrackE → TrackE)
    (k : Nat) :
    mapLookup (storeUpdate l id f) k
      = if k = id then (mapLookup l k).map f else mapLookup l k := by
  induction l with
  | nil => by_cases hk : k = id <;> simp [storeUpdate, mapLookup, hk]
  | cons p rest ih =>
    simp only [storeUpdate] at ih
    by_cases hpk : p.1 = k
    · by_cases hki : k = id
      · have hpi : p.1 = id := hpk.trans hki
        simp [storeUpdate, mapLookup, hpk, hki, hpi]
      · have hpi : ¬ p.1 = id := fun hc => hki (hpk.symm.trans hc)
        simp [storeUpdate, mapLookup, hpk, hki, hpi]
    · by_cases hki : k = id
      · subst hki
        by_cases hpi : p.1 = k
        · exact absurd hpi hpk
        · simp [storeUpdate, mapLookup, hpk, hpi, ih]
      · have hik : ¬ id = k := fun hc => hki hc.symm
        by_cases hpi : p.1 = id
        · simp [storeUpdate, mapLookup, hpk, hki, hpi, hik, ih]
        · simp [storeUpdate, mapLookup, hpk, hki, hpi, hik, ih]

theorem storeUpdate_keys (l : List (Nat × TrackE)) (id : Nat) (f : TrackE → TrackE) :
    (storeUpdate l id f).map Prod.fst = l.map Prod.fst := by
  induction l with
  | nil => simp [storeUpdate]
  | cons p rest ih =>
    simp only [storeUpdate] at ih
    by_cases hp : p.1 = id
    · simp [storeUpdate, hp, ih]
    · simp [storeUpdate, hp, ih]

theorem storeUpdate_of_not_mem {l : List (Nat × TrackE)} {id : Nat}
    (h : id ∉ l.map Prod.fst) (f : TrackE → TrackE) : storeUpdate l id f = l := by
  induction l with
  | nil => simp [storeUpdate]
  | cons p rest ih =>
    simp only [storeUpdate] at ih
    simp only [List.map_cons, List.mem_cons, not_or] at h
    have hp : ¬ p.1 = id := fun hc => h.1 hc.symm
    simp [storeUpdate, hp, ih h.2]

theorem mapInsert_mem {α : Type} {p : Nat × α} {k : Nat} {v : α} {m : List (Nat × α)}
    (h : p ∈ mapInsert k v m) : p = (k, v) ∨ p ∈ m := by
  induction m with
  | nil => simpa [mapInsert] using h
  | cons q rest ih =>
    simp only [mapInsert] at h
    by_cases h1 : k < q.1
    · rw [if_pos h1] at h
      simp only [List.mem_cons] at h
      rcases h with h | h | h
      · exact Or.inl h
      · exact Or.inr (by simp [h])
      · exact Or.inr (by simp [h])
    · rw [if_neg h1] at h
      by_cases h2 : k = q.1
      · rw [if_pos h2] at h
        simp only [List.mem_cons] at h
        rcases h with h | h
        · exact Or.inl h
        · exact Or.inr (by simp [h])
      · rw [if_neg h2] at h
        simp only [List.mem_cons] at h
        rcases h with h | h
        · exact Or.inr (by simp [h])
        · rcases ih h with h | h
          · exact Or.inl h
          · exact Or.inr (by simp [h])

theorem storeSumL_append (l l2 : List (Nat × TrackE)) :
    storeSumL (l ++ l2) = storeSumL l + storeSumL l2 := by
  simp [storeSumL]

theorem storeSumL_update_append_timer (l : List (Nat × TrackE)) (id : Nat) (t : Timer)
    (hn : (l.map Prod.fst).Nodup) (hm : id ∈ l.map Prod.fst) :
    storeSumL (storeUpdate l id fun tr => { tr with timers := tr.timers ++ [t] })
      = storeSumL l + 1 := by
  induction l with
  | nil => simp at hm
  | cons p rest ih =>
    simp only [List.map_cons, List.nodup_cons] at hn
    simp only [List.map_cons, List.mem_cons] at hm
    simp only [storeUpdate] at ih ⊢
    by_cases hp : p.1 = id
    · have hout : id ∉ rest.map Prod.fst := hp ▸ hn.1
      have : storeUpdate rest id (fun tr => { tr with timers := tr.timers ++ [t] }) = rest :=
        storeUpdate_of_not_mem hout _
      simp only [storeUpdate] at this
      simp only [List.map_cons, hp, if_true, this, storeSumL, List.map_cons, List.sum_cons]
      simp [Nat.add_assoc, Nat.add_comm, Nat.add_left_comm]
    · have hm2 : id ∈ rest.map Prod.fst := by
        rcases hm with hm | hm
        · exact absurd hm.symm hp
        · exact hm
      have := ih hn.2 hm2
      simp only [List.map_cons, hp, if_false, storeSumL, List.map_cons, List.sum_cons] at this ⊢
      omega

theorem storeSumL_update_preserving (l : List (Nat × TrackE)) (id : Nat)
    (f : TrackE → TrackE) (hf : ∀ tr, (f tr).timers = tr.timers) :
    storeSumL (storeUpdate l id f) = storeSumL l := by
  unfold storeSumL storeUpdate
  rw [List.map_map]
  congr 1
  apply List.map_congr_left
  intro p _
  by_cases hp : p.1 = id <;> simp [hp, hf]

theorem getNumTimers_eq_storeSumL (s : TimeGraphE)
    (ht : s.tracks = s.store.map Prod.fst) (hn : (s.store.map Prod.fst).Nodup) :
    getNumTimers s = storeSumL s.store := by
  have key : ∀ (l : List (Nat × TrackE)), (l.map Prod.fst).Nodup →
      ((l.map Prod.fst).map fun k => (((mapLookup l k).map TrackE.timers).getD []).length).sum
        = storeSumL l := by
    intro l
    induction l with
    | nil => simp [storeSumL]
    | cons p rest ih =>
      intro hnd
      simp only [List.map_cons, List.nodup_cons] at hnd
      have hhead : mapLookup (p :: rest) p.1 = some p.2 := by simp [mapLookup]
      have htail : (rest.map Prod.fst).map
            (fun k => (((mapLookup (p :: rest) k).map TrackE.timers).getD []).length)
          = (rest.map Prod.fst).map
            (fun k => (((mapLookup rest k).map TrackE.timers).getD []).length) := by
        apply List.map_congr_left
        intro k hk
        have hne : ¬ p.1 = k := fun hc => hnd.1 (hc ▸ hk)
        simp [mapLookup, hne]
      simp only [List.map_cons, List.sum_cons, hhead, htail, ih hnd.2]
      simp [storeSumL]
  rw [getNumTimers]
  have : (s.tracks.map fun id => (trackTimers s id).length)
      = (s.store.map Prod.fst).map
          fun k => (((mapLookup s.store k).map TrackE.timers).getD []).length := by
    rw [ht]
    apply List.map_congr_left
    intro k _
    rfl
  rw [this, key s.store hn]

theorem mapLookup_mem {α : Type} {l : List (Nat × α)} {k : Nat} {v : α}
    (h : mapLookup l k = some v) : (k, v) ∈ l := by
  induction l with
  | nil => simp [mapLookup] at h
  | cons p rest ih =>
    simp only [mapLookup] at h
    by_cases hp : p.1 = k
    · rw [if_pos hp] at h
      have hv : p.2 = v := by injection h
      have hpv : p = (k, v) := by
        cases p
        simp only at hp hv
        simp [hp, hv]
      rw [← hpv]
      exact List.mem_cons_self _ _
    · rw [if_neg hp] at h
      exact List.mem_cons_of_mem _ (ih h)

theorem updateMaxTimeStamp_eq (s : TimeGraphE) (x : Nat) :
    updateMaxTimeStamp s x
      = { s with capture_max_timestamp := max s.capture_max_timestamp x } := by
  unfold updateMaxTimeStamp
  by_cases h : s.capture_max_timestamp < x
  · rw [if_pos h]
    congr 1
    omega
  · rw [if_neg h]
    have hm : max s.capture_max_timestamp x = s.capture_max_timestamp := by omega
    rw [hm]

theorem flagAndCount_eq (s : TimeGraphE) (t : Timer) :
    flagAndCount s t
      = { s with
          hasContextSwitches :=
            if t.m_Type = TimerType.coreActivity then true else s.hasContextSwitches,
          functionCountMap :=
            if 0 < t.m_FunctionAddress ∧ t.m_FunctionAddress ∈ s.funcKnown
              then mapIncr s.functionCountMap t.m_FunctionAddress
              else s.functionCountMap } := by
  unfold flagAndCount
  cases t.m_Type <;>
    by_cases h1 : 0 < t.m_FunctionAddress <;>
    by_cases h2 : t.m_FunctionAddress ∈ s.funcKnown <;>
    simp [h1, h2]

theorem gocThread_capture_max (s : TimeGraphE) (tid : Nat) :
    (getOrCreateThreadTrack s tid).2.capture_max_timestamp = s.capture_max_timestamp := by
  cases hl : mapLookup s.thread_tracks tid <;> simp [getOrCreateThreadTrack, hl]

theorem gocGpu_capture_max (s : TimeGraphE) (h : Nat) :
    (getOrCreateGpuTrack s h).2.capture_max_timestamp = s.capture_max_timestamp := by
  cases hl : mapLookup s.gpu_tracks h <;> simp [getOrCreateGpuTrack, hl]

theorem processTimerRoute_capture_max (s : TimeGraphE) (t : Timer) :
    (processTimerRoute s t).capture_max_timestamp = s.capture_max_timestamp := by
  unfold processTimerRoute
  by_cases hg : t.m_Type = TimerType.gpuActivity
  · simp [hg, trackOnTimer, trackSetNameLabel, gocGpu_capture_max]
  · by_cases hc : t.m_Type ≠ TimerType.coreActivity
    · simp [hg, hc, trackOnTimer, gocThread_capture_max]
    · cases hsch : (getOrCreateThreadTrack s t.m_TID).2.scheduler_track with
      | none => simp [hg, hc, hsch, gocThread_capture_max]
      | some sid => simp [hg, hc, hsch, trackOnTimer, gocThread_capture_max]

theorem processTimer_capture_max (s : TimeGraphE) (t : Timer) :
    (processTimer s t).capture_max_timestamp = max s.capture_max_timestamp t.m_End := by
  unfold processTimer
  rw [processTimerRoute_capture_max]
  rw [show (flagAndCount (updateMaxTimeStamp s t.m_End) t).capture_max_timestamp
      = (updateMaxTimeStamp s t.m_End).capture_max_timestamp from by
    rw [flagAndCount_eq]]
  rw [updateMaxTimeStamp_eq]

theorem gocThread_props (s : TimeGraphE) (tid : Nat) (h : TGInv s) :
    TGInv (getOrCreateThreadTrack s tid).2
    ∧ (getOrCreateThreadTrack s tid).1 ∈ (getOrCreateThreadTrack s tid).2.store.map Prod.fst
    ∧ storeSumL (getOrCreateThreadTrack s tid).2.store = storeSumL s.store
    ∧ (getOrCreateThreadTrack s tid).2.scheduler_track = s.scheduler_track
    ∧ (∀ k ∈ s.store.map Prod.fst,
        k ∈ (getOrCreateThreadTrack s tid).2.store.map Prod.fst) := by
  obtain ⟨h1, h2, h3, h4, h5, h6⟩ := h
  cases hl : mapLookup s.thread_tracks tid with
  | some id =>
    simp only [getOrCreateThreadTrack, hl]
    refine ⟨⟨h1, h2, h3, h4, h5, h6⟩, ?_, ?_, ?_, ?_⟩
    · exact h5 (tid, id) (mapLookup_mem hl)
    · trivial
    · trivial
    · exact fun k hk => hk
  | none =>
    simp only [getOrCreateThreadTrack, hl]
    refine ⟨⟨?_, ?_, ?_, ?_, ?_, ?_⟩, ?_, ?_, trivial, ?_⟩
    · simp [h1]
    · simp only [List.map_append, List.map_cons, List.map_nil]
      rw [List.nodup_append]
      refine ⟨h2, by simp, ?_⟩
      intro a ha hb
      simp only [List.mem_cons, List.not_mem_nil, or_false] at hb
      exact absurd (hb ▸ h3 a ha) (lt_irrefl _)
    · intro k hk
      simp only [List.map_append, List.map_cons, List.map_nil, List.mem_append,
        List.mem_cons, List.not_mem_nil, or_false] at hk
      rcases hk with hk | hk
      · exact Nat.lt_succ_of_lt (h3 k hk)
      · simp [hk]
    · obtain ⟨sid, hmem, hsid⟩ := h4
      exact ⟨sid, by simp [List.mem_append, hmem], hsid⟩
    · intro p hp
      rcases mapInsert_mem hp with hp2 | hp2
      · simp [hp2]
      · simp [List.mem_append, h5 p hp2]
    · intro p hp
      simp [List.mem_append, h6 p hp]
    · simp
    · simp [storeSumL_append, storeSumL, freshTrack]
    · intro k hk
      simp [List.mem_append, hk]

theorem gocGpu_props (s : TimeGraphE) (hh : Nat) (h : TGInv s) :
    TGInv (getOrCreateGpuTrack s hh).2
    ∧ (getOrCreateGpuTrack s hh).1 ∈ (getOrCreateGpuTrack s hh).2.store.map Prod.fst
    ∧ storeSumL (getOrCreateGpuTrack s hh).2.store = storeSumL s.store
    ∧ (getOrCreateGpuTrack s hh).2.scheduler_track = s.scheduler_track
    ∧ (∀ k ∈ s.store.map Prod.fst,
        k ∈ (getOrCreateGpuTrack s hh).2.store.map Prod.fst) := by
  obtain ⟨h1, h2, h3, h4, h5, h6⟩ := h
  cases hl : mapLookup s.gpu_tracks hh with
  | some id =>
    simp only [getOrCreateGpuTrack, hl]
    refine ⟨⟨h1, h2, h3, h4, h5, h6⟩, ?_, ?_, ?_, ?_⟩
    · exact h6 (hh, id) (mapLookup_mem hl)
    · trivial
    · trivial
    · exact fun k hk => hk
  | none =>
    simp only [getOrCreateGpuTrack, hl]
    refine ⟨⟨?_, ?_, ?_, ?_, ?_, ?_⟩, ?_, ?_, trivial, ?_⟩
    · simp [h1]
    · simp only [List.map_append, List.map_cons, List.map_nil]
      rw [List.nodup_append]
      refine ⟨h2, by simp, ?_⟩
      intro a ha hb
      simp only [List.mem_cons, List.not_mem_nil, or_false] at hb
      exact absurd (hb ▸ h3 a ha) (lt_irrefl _)
    · intro k hk
      simp only [List.map_append, List.map_cons, List.map_nil, List.mem_append,
        List.mem_cons, List.not_mem_nil, or_false] at hk
      rcases hk with hk | hk
      · exact Nat.lt_succ_of_lt (h3 k hk)
      · simp [hk]
    · obtain ⟨sid, hmem, hsid⟩ := h4
      exact ⟨sid, by simp [List.mem_append, hmem], hsid⟩
    · intro p hp
      simp [List.mem_append, h5 p hp]
    · intro p hp
      rcases mapInsert_mem hp with hp2 | hp2
      · simp [hp2]
      · simp [List.mem_append, h6 p hp2]
    · simp
    · simp [storeSumL_append, storeSumL, freshTrack]
    · intro k hk
      simp [List.mem_append, hk]

theorem trackOnTimer_props (s : TimeGraphE) (id : Nat) (t : Timer) (h : TGInv s)
    (hm : id ∈ s.store.map Prod.fst) :
    TGInv (trackOnTimer s id t)
    ∧ storeSumL (trackOnTimer s id t).store = storeSumL s.store + 1 := by
  obtain ⟨h1, h2, h3, h4, h5, h6⟩ := h
  refine ⟨⟨?_, ?_, ?_, ?_, ?_, ?_⟩, ?_⟩
  · simp [trackOnTimer, storeUpdate_keys, h1]
  · simp [trackOnTimer, storeUpdate_keys, h2]
  · simpa [trackOnTimer, storeUpdate_keys] using h3
  · obtain ⟨sid, hmem, hsid⟩ := h4
    exact ⟨sid, by simpa [trackOnTimer, storeUpdate_keys] using hmem, hsid⟩
  · intro p hp
    simpa [trackOnTimer, storeUpdate_keys] using h5 p hp
  · intro p hp
    simpa [trackOnTimer, storeUpdate_keys] using h6 p hp
  · simpa [trackOnTimer] using storeSumL_update_append_timer s.store id t h2 hm

theorem trackSetNameLabel_props (s : TimeGraphE) (id : Nat) (nm : String) (h : TGInv s) :
    TGInv (trackSetNameLabel s id nm)
    ∧ storeSumL (trackSetNameLabel s id nm).store = storeSumL s.store
    ∧ (trackSetNameLabel s id nm).store.map Prod.fst = s.store.map Prod.fst := by
  obtain ⟨h1, h2, h3, h4, h5, h6⟩ := h
  refine ⟨⟨?_, ?_, ?_, ?_, ?_, ?_⟩, ?_, ?_⟩
  · simp [trackSetNameLabel, storeUpdate_keys, h1]
  · simp [trackSetNameLabel, storeUpdate_keys, h2]
  · simpa [trackSetNameLabel, storeUpdate_keys] using h3
  · obtain ⟨sid, hmem, hsid⟩ := h4
    exact ⟨sid, by simpa [trackSetNameLabel, storeUpdate_keys] using hmem, hsid⟩
  · intro p hp
    simpa [trackSetNameLabel, storeUpdate_keys] using h5 p hp
  · intro p hp
    simpa [trackSetNameLabel, storeUpdate_keys] using h6 p hp
  · simpa [trackSetNameLabel] using
      storeSumL_update_preserving s.store id
        (fun tr => { tr with name := nm, label := nm }) (fun tr => rfl)
  · simp [trackSetNameLabel, storeUpdate_keys]

theorem processTimerRoute_props (s : TimeGraphE) (t : Timer) (h : TGInv s) :
    TGInv (processTimerRoute s t)
    ∧ storeSumL (processTimerRoute s t).store = storeSumL s.store + 1 := by
  unfold processTimerRoute
  by_cases hg : t.m_Type = TimerType.gpuActivity
  · rw [if_pos hg]
    obtain ⟨hA, hB, hC, _, _⟩ := gocGpu_props s t.m_UserData1 h
    obtain ⟨hN, hNs, hNk⟩ := trackSetNameLabel_props (getOrCreateGpuTrack s t.m_UserData1).2
      (getOrCreateGpuTrack s t.m_UserData1).1
      ((mapLookup (getOrCreateGpuTrack s t.m_UserData1).2.stringTable t.m_UserData1).getD
        emptyStr) hA
    have hmem : (getOrCreateGpuTrack s t.m_UserData1).1
        ∈ (trackSetNameLabel (getOrCreateGpuTrack s t.m_UserData1).2
            (getOrCreateGpuTrack s t.m_UserData1).1
            ((mapLookup (getOrCreateGpuTrack s t.m_UserData1).2.stringTable
              t.m_UserData1).getD emptyStr)).store.map Prod.fst := by
      rw [hNk]
      exact hB
    obtain ⟨hO, hOs⟩ := trackOnTimer_props _ (getOrCreateGpuTrack s t.m_UserData1).1 t hN hmem
    exact ⟨hO, by rw [hOs, hNs, hC]⟩
  · rw [if_neg hg]
    obtain ⟨pA, pB, pC, pSched, _⟩ := gocThread_props s t.m_TID h
    by_cases hc : t.m_Type ≠ TimerType.coreActivity
    · rw [if_pos hc]
      obtain ⟨hO, hOs⟩ := trackOnTimer_props (getOrCreateThreadTrack s t.m_TID).2
        (getOrCreateThreadTrack s t.m_TID).1 t pA pB
      constructor
      · obtain ⟨o1, o2, o3, o4, o5, o6⟩ := hO
        exact ⟨o1, o2, o3, o4, o5, o6⟩
      · simpa using hOs.trans (by rw [pC])
    · rw [if_neg hc]
      obtain ⟨sid, hsidmem, hsid⟩ := pA.2.2.2.1
      cases hsch : (getOrCreateThreadTrack s t.m_TID).2.scheduler_track with
      | none =>
        rw [hsid] at hsch
        cases hsch
      | some sid2 =>
        have hsid2 : sid2 = sid := by
          rw [hsid] at hsch
          injection hsch
          omega
        obtain ⟨hO, hOs⟩ := trackOnTimer_props (getOrCreateThreadTrack s t.m_TID).2 sid2 t pA
          (by rw [hsid2]; exact hsidmem)
        constructor
        · obtain ⟨o1, o2, o3, o4, o5, o6⟩ := hO
          exact ⟨o1, o2, o3, o4, o5, o6⟩
        · simpa using hOs.trans (by rw [pC])

theorem processTimer_props (s : TimeGraphE) (t : Timer) (h : TGInv s) :
    TGInv (processTimer s t) ∧ getNumTimers (processTimer s t) = getNumTimers s + 1 := by
  unfold processTimer
  have hmu : TGInv (updateMaxTimeStamp s t.m_End) := by
    rw [updateMaxTimeStamp_eq]
    obtain ⟨h1, h2, h3, h4, h5, h6⟩ := h
    exact ⟨h1, h2, h3, h4, h5, h6⟩
  have hfc : TGInv (flagAndCount (updateMaxTimeStamp s t.m_End) t) := by
    rw [flagAndCount_eq]
    obtain ⟨h1, h2, h3, h4, h5, h6⟩ := hmu
    exact ⟨h1, h2, h3, h4, h5, h6⟩
  obtain ⟨hI, hS⟩ := processTimerRoute_props _ t hfc
  refine ⟨hI, ?_⟩
  rw [getNumTimers_eq_storeSumL _ hI.1 hI.2.1, getNumTimers_eq_storeSumL s h.1 h.2.1, hS]
  have : (flagAndCount (updateMaxTimeStamp s t.m_End) t).store = s.store := by
    rw [flagAndCount_eq, updateMaxTimeStamp_eq]
  rw [this]

theorem clearTG_eq (sp : TimeGraphE) :
    clearTG sp = { sp with
      nextId := sp.nextId + 2
      store := [(sp.nextId, freshTrack), (sp.nextId + 1, freshTrack)]
      tracks := [sp.nextId, sp.nextId + 1]
      scheduler_track := some sp.nextId
      process_track := some (sp.nextId + 1)
      thread_tracks := [(0, sp.nextId + 1)]
      gpu_tracks := []
      cores_seen := []
      m_ThreadCountMap := []
      capture_min_timestamp := UINT64MAX
      capture_max_timestamp := 0
      eventBuffer := [] } := rfl

theorem TGInv_clearTG (sp : TimeGraphE) : TGInv (clearTG sp) := by
  rw [clearTG_eq]
  refine ⟨by simp, ?_, ?_, ?_, ?_, ?_⟩
  · simp only [List.map_cons, List.map_nil, List.nodup_cons, List.mem_cons,
      List.not_mem_nil, or_false, List.nodup_nil, and_true, not_false_iff]
    omega
  · intro k hk
    simp only [List.map_cons, List.map_nil, List.mem_cons, List.not_mem_nil, or_false] at hk
    rcases hk with hk | hk
    · subst hk
      show sp.nextId < sp.nextId + 2
      omega
    · subst hk
      show sp.nextId + 1 < sp.nextId + 2
      omega
  · exact ⟨sp.nextId, by simp, rfl⟩
  · intro p hp
    simp only [List.mem_cons, List.not_mem_nil, or_false] at hp
    simp [hp]
  · intro p hp
    simp at hp

theorem getNumTimers_clearTG (sp : TimeGraphE) : getNumTimers (clearTG sp) = 0 := by
  rw [clearTG_eq]
  simp [getNumTimers, trackTimers, mapLookup, freshTrack]

theorem processAll_capture_max (ts : List Timer) (s : TimeGraphE) :
    (processAll s ts).capture_max_timestamp
      = ts.foldl (fun a t => max a t.m_End) s.capture_max_timestamp := by
  induction ts generalizing s with
  | nil => rfl
  | cons t rest ih =>
    show (processAll (processTimer s t) rest).capture_max_timestamp = _
    rw [ih, List.foldl_cons, processTimer_capture_max]

theorem processAll_inv_count (ts : List Timer) (s : TimeGraphE) (h : TGInv s) :
    TGInv (processAll s ts)
    ∧ getNumTimers (processAll s ts) = getNumTimers s + ts.length := by
  induction ts generalizing s with
  | nil => exact ⟨h, rfl⟩
  | cons t rest ih =>
    obtain ⟨hI, hC⟩ := processTimer_props s t h
    obtain ⟨hI2, hC2⟩ := ih (processTimer s t) hI
    refine ⟨hI2, ?_⟩
    show getNumTimers (processAll (processTimer s t) rest) = _
    rw [hC2, hC]
    simp only [List.length_cons]
    omega

theorem foldl_max_le (l : List Nat) (a : Nat) :
    a ≤ l.foldl max a ∧ ∀ x ∈ l, x ≤ l.foldl max a := by
  induction l generalizing a with
  | nil => exact ⟨le_refl a, by simp⟩
  | cons b rest ih =>
    obtain ⟨ih1, ih2⟩ := ih (max a b)
    rw [List.foldl_cons]
    refine ⟨le_trans (le_max_left a b) ih1, ?_⟩
    intro x hx
    rcases List.mem_cons.mp hx with hx | hx
    · rw [hx]
      exact le_trans (le_max_right a b) ih1
    · exact ih2 x hx

theorem foldl_max_mem (l : List Nat) (a : Nat) :
    l.foldl max a = a ∨ l.foldl max a ∈ l := by
  induction l generalizing a with
  | nil => exact Or.inl rfl
  | cons b rest ih =>
    rcases ih (max a b) with hm | hm
    · rcases max_choice a b with hc | hc
      · exact Or.inl (by rw [List.foldl_cons, hm, hc])
      · exact Or.inr (by rw [List.foldl_cons, hm, hc]; exact List.mem_cons_self _ _)
    · exact Or.inr (List.mem_cons_of_mem _ hm)

/-- C2: ingesting any record sequence into a freshly constructed or just
cleared `TimeGraph`, `capture_max_timestamp_` never decreases from one
`ProcessTimer` call to the next; after the whole sequence it equals the
maximum `m_End` among the ingested records (when any were ingested), and
`GetNumTimers()` equals the number of records ingested — each record was
appended to exactly one track. -/
theorem processTimer_sequence_spec (s0 : TimeGraphE) (ts : List Timer)
    (h0 : s0 = mkTimeGraph ∨ ∃ sp, s0 = clearTG sp) :
    (∀ n : Nat, (processAll s0 (ts.take n)).capture_max_timestamp
        ≤ (processAll s0 (ts.take (n + 1))).capture_max_timestamp)
    ∧ (ts ≠ [] →
        ((processAll s0 ts).capture_max_timestamp ∈ ts.map Timer.m_End
          ∧ ∀ t ∈ ts, t.m_End ≤ (processAll s0 ts).capture_max_timestamp))
    ∧ getNumTimers (processAll s0 ts) = ts.length := by
  have hInv : TGInv s0 ∧ s0.capture_max_timestamp = 0 ∧ getNumTimers s0 = 0 := by
    rcases h0 with h0 | ⟨sp, h0⟩
    · subst h0
      exact ⟨by decide, by decide, by decide⟩
    · subst h0
      exact ⟨TGInv_clearTG sp, by rw [clearTG_eq], getNumTimers_clearTG sp⟩
  obtain ⟨hI0, hc0, hn0⟩ := hInv
  refine ⟨?_, ?_, ?_⟩
  · intro n
    rw [List.take_succ]
    cases hget : ts[n]? with
    | none => simp
    | some t =>
      show _ ≤ (List.foldl processTimer s0 (ts.take n ++ [t])).capture_max_timestamp
      rw [List.foldl_append]
      show _ ≤ (processTimer (processAll s0 (ts.take n)) t).capture_max_timestamp
      rw [processTimer_capture_max]
      exact le_max_left _ _
  · intro hne
    have hfold : (processAll s0 ts).capture_max_timestamp
        = (ts.map Timer.m_End).foldl max 0 := by
      rw [processAll_capture_max, hc0, ← List.foldl_map]
    constructor
    · rw [hfold]
      rcases foldl_max_mem (ts.map Timer.m_End) 0 with hm | hm
      · cases ts with
        | nil => exact absurd rfl hne
        | cons t rest =>
          have hle := (foldl_max_le ((t :: rest).map Timer.m_End) 0).2 t.m_End
            (by simp)
          rw [hm] at hle
          have : t.m_End = 0 := Nat.le_zero.mp hle
          rw [hm, ← this]
          simp
      · exact hm
    · intro t ht
      rw [hfold]
      exact (foldl_max_le (ts.map Timer.m_End) 0).2 t.m_End (List.mem_map_of_mem _ ht)
  · rw [(processAll_inv_count ts s0 hI0).2, hn0]
    omega

/-- C2 witness: two concrete records into a fresh graph — the count is 2
and the final max timestamp is the larger `m_End`, 9. -/
theorem processTimer_sequence_spec_witness :
    (mkTimeGraph = mkTimeGraph ∨ ∃ sp, mkTimeGraph = clearTG sp)
    ∧ ((∀ n : Nat,
          (processAll mkTimeGraph ([⟨1, 5, 7, 0, 0, 0, TimerType.regular⟩,
            ⟨2, 9, 8, 0, 0, 0, TimerType.regular⟩].take n)).capture_max_timestamp
          ≤ (processAll mkTimeGraph ([⟨1, 5, 7, 0, 0, 0, TimerType.regular⟩,
            ⟨2, 9, 8, 0, 0, 0, TimerType.regular⟩].take (n + 1))).capture_max_timestamp)
        ∧ (([⟨1, 5, 7, 0, 0, 0, TimerType.regular⟩,
            ⟨2, 9, 8, 0, 0, 0, TimerType.regular⟩] : List Timer) ≠ [] →
          ((processAll mkTimeGraph [⟨1, 5, 7, 0, 0, 0, TimerType.regular⟩,
            ⟨2, 9, 8, 0, 0, 0, TimerType.regular⟩]).capture_max_timestamp
            ∈ ([⟨1, 5, 7, 0, 0, 0, TimerType.regular⟩,
              ⟨2, 9, 8, 0, 0, 0, TimerType.regular⟩] : List Timer).map Timer.m_End
          ∧ ∀ t ∈ ([⟨1, 5, 7, 0, 0, 0, TimerType.regular⟩,
              ⟨2, 9, 8, 0, 0, 0, TimerType.regular⟩] : List Timer),
              t.m_End ≤ (processAll mkTimeGraph [⟨1, 5, 7, 0, 0, 0, TimerType.regular⟩,
                ⟨2, 9, 8, 0, 0, 0, TimerType.regular⟩]).capture_max_timestamp))
        ∧ getNumTimers (processAll mkTimeGraph [⟨1, 5, 7, 0, 0, 0, TimerType.regular⟩,
            ⟨2, 9, 8, 0, 0, 0, TimerType.regular⟩]) = 2) :=
  ⟨Or.inl rfl,
    processTimer_sequence_spec mkTimeGraph
      [⟨1, 5, 7, 0, 0, 0, TimerType.regular⟩, ⟨2, 9, 8, 0, 0, 0, TimerType.regular⟩]
      (Or.inl rfl)⟩

/-- C10 counterexample: after ingesting one record for thread 7 and calling
`Clear()`, the thread-track map is not empty — it holds the entry mapping
id 0 to the freshly created process track, so "the thread-track map is
emptied" is false of the post-`Clear()` state. -/
theorem clear_thread_map_not_emptied :
    (clearTG (processTimer mkTimeGraph ⟨1, 5, 7, 0, 0, 0, TimerType.regular⟩)).thread_tracks
      = [(0, 4)]
    ∧ (clearTG (processTimer mkTimeGraph
        ⟨1, 5, 7, 0, 0, 0, TimerType.regular⟩)).thread_tracks ≠ [] := by
  exact ⟨by decide, by decide⟩

/-- C10 amended: after construction and after every `Clear()`, the
scheduler track and the id-0 process thread track both exist; `Clear()`
leaves `tracks_` holding exactly the two freshly created tracks, empties
the gpu-track map, core-seen set, thread-count map and event buffer, and
leaves the thread-track map holding exactly the entry for id 0 pointing at
the fresh process track. -/
theorem clear_reinitializes_spec (sp : TimeGraphE) :
    (clearTG sp).scheduler_track = some sp.nextId
    ∧ (clearTG sp).process_track = some (sp.nextId + 1)
    ∧ (clearTG sp).tracks = [sp.nextId, sp.nextId + 1]
    ∧ (clearTG sp).store = [(sp.nextId, freshTrack), (sp.nextId + 1, freshTrack)]
    ∧ (clearTG sp).thread_tracks = [(0, sp.nextId + 1)]
    ∧ (clearTG sp).gpu_tracks = []
    ∧ (clearTG sp).cores_seen = []
    ∧ (clearTG sp).m_ThreadCountMap = []
    ∧ (clearTG sp).eventBuffer = []
    ∧ (clearTG sp).capture_max_timestamp = 0
    ∧ (clearTG sp).capture_min_timestamp = UINT64MAX
    ∧ mkTimeGraph.scheduler_track = some 0
    ∧ mkTimeGraph.process_track = some 1
    ∧ mkTimeGraph.tracks = [0, 1]
    ∧ mkTimeGraph.thread_tracks = [(0, 1)] :=
  ⟨rfl, rfl, rfl, rfl, rfl, rfl, rfl, rfl, rfl, rfl, rfl, rfl, rfl, rfl, rfl⟩

/-- C5: `SelectEvents(a, b, tid)` and `SelectEvents(b, a, tid)` produce the
same result — the same selected event list and the same state — because
inverted bounds are normalized by swapping before the query. -/
theorem selectEvents_swap_spec (s : TimeGraphE) (a b : ℚ) (tid : Nat) :
    selectEvents s a b tid = selectEvents s b a tid := by
  have hpair : (if b < a then (b, a) else (a, b)) = (if a < b then (a, b) else (b, a)) := by
    rcases lt_trichotomy a b with h | h | h
    · rw [if_neg (not_lt.mpr (le_of_lt h)), if_pos h]
    · rw [h]
    · rw [if_pos h, if_neg (not_lt.mpr (le_of_lt h))]
  exact congrArg (fun p => selectEventsAt s p tid) hpair

/-- C6: `SelectEvents` publishes an aggregated report exactly when at
least one selected event's callstack id resolves in the callstack store;
in particular an empty selection publishes nothing (and the call always
returns normally). -/
theorem selectEvents_publish_spec (s : TimeGraphE) (a b : ℚ) (tid : Nat) :
    ((selectEvents s a b tid).2.selectionReports ≠ s.selectionReports
      ↔ ∃ e ∈ (selectEvents s a b tid).1,
          (mapLookup s.callstackTable e.m_Id).isSome = true)
    ∧ ((selectEvents s a b tid).1 = [] →
        (selectEvents s a b tid).2.selectionReports = s.selectionReports) := by
  have key : ∀ (p : ℚ × ℚ),
      ((selectEventsAt s p tid).2.selectionReports ≠ s.selectionReports
        ↔ ∃ e ∈ (selectEventsAt s p tid).1,
            (mapLookup s.callstackTable e.m_Id).isSome = true)
      ∧ ((selectEventsAt s p tid).1 = [] →
          (selectEventsAt s p tid).2.selectionReports = s.selectionReports) := by
    intro p
    dsimp only [selectEventsAt, needsUpdate]
    by_cases hn : 0 < ((getCallstackEvents s.eventBuffer (getTickFromWorld s p.1)
        (getTickFromWorld s p.2) tid).filter fun e =>
          (mapLookup s.callstackTable e.m_Id).isSome).length
    · rw [if_pos hn]
      constructor
      · constructor
        · intro _
          obtain ⟨e, he⟩ := List.exists_mem_of_length_pos hn
          obtain ⟨he1, he2⟩ := List.mem_filter.mp he
          exact ⟨e, he1, he2⟩
        · intro _ hEq
          have := congrArg List.length hEq
          simp at this
      · intro hsel
        rw [hsel] at hn
        simp at hn
    · rw [if_neg hn]
      constructor
      · constructor
        · intro hEq
          exact absurd rfl hEq
        · intro ⟨e, he1, he2⟩
          exfalso
          apply hn
          have : e ∈ (getCallstackEvents s.eventBuffer (getTickFromWorld s p.1)
              (getTickFromWorld s p.2) tid).filter fun e =>
                (mapLookup s.callstackTable e.m_Id).isSome :=
            List.mem_filter.mpr ⟨he1, he2⟩
          exact List.length_pos.mpr (List.ne_nil_of_mem this)
      · intro _
        rfl
  exact key (if b < a then (b, a) else (a, b))

/-- C9: independently of each other — whenever the visible time window is
zero, `GetWorldFromTick` returns 0 without dividing; and whenever the
world width is zero, `GetTickFromWorld` uses ratio 0, so its result is the
value at ratio 0 regardless of the input coordinate — so neither transform
ever divides by the zero quantity. -/
theorem viewportTransform_zero_guard_spec (s : TimeGraphE) :
    (s.m_TimeWindowUs = 0 → ∀ time : Nat, getWorldFromTick s time = 0)
    ∧ (s.m_WorldWidth = 0 → ∀ x : ℚ, getTickFromWorld s x
        = (s.capture_min_timestamp : Int)
          + ticksFromMicroseconds s.tickScale (getTime s 0)) := by
  constructor
  · intro hw time
    unfold getWorldFromTick
    rw [if_neg]
    rw [hw]
    exact lt_irrefl 0
  · intro hx x
    unfold getTickFromWorld
    have hr : (if s.m_WorldWidth ≠ 0
        then (x - s.m_WorldStartX) / s.m_WorldWidth else 0) = (0 : ℚ) := by
      rw [if_neg]
      simp [hx]
    rw [hr]

/-- C9 witness: each guard fires on its own — a state with zero window but
nonzero world width gives world position 0 at tick 5, and a state with
zero width but nonzero window gives the ratio-0 tick at coordinate 3. -/
theorem viewportTransform_zero_guard_spec_witness :
    (zeroWindowTG.m_TimeWindowUs = 0 ∧ zeroWindowTG.m_WorldWidth ≠ 0
      ∧ zeroWidthTG.m_WorldWidth = 0 ∧ zeroWidthTG.m_TimeWindowUs ≠ 0)
    ∧ getWorldFromTick zeroWindowTG 5 = 0
    ∧ getTickFromWorld zeroWidthTG 3
        = (zeroWidthTG.capture_min_timestamp : Int)
          + ticksFromMicroseconds zeroWidthTG.tickScale (getTime zeroWidthTG 0) :=
  ⟨⟨rfl, by norm_num [zeroWindowTG, baseTG], rfl,
      by norm_num [zeroWidthTG, baseTG]⟩,
    (viewportTransform_zero_guard_spec zeroWindowTG).1 rfl 5,
    (viewportTransform_zero_guard_spec zeroWidthTG).2 rfl 3⟩

/-- C6 witness: the theorem applied at a concrete state and selection
bounds. -/
theorem selectEvents_publish_spec_witness :
    ((selectEvents baseTG 0 1 0).2.selectionReports ≠ baseTG.selectionReports
      ↔ ∃ e ∈ (selectEvents baseTG 0 1 0).1,
          (mapLookup baseTG.callstackTable e.m_Id).isSome = true)
    ∧ ((selectEvents baseTG 0 1 0).1 = [] →
        (selectEvents baseTG 0 1 0).2.selectionReports = baseTG.selectionReports) :=
  selectEvents_publish_spec baseTG 0 1 0

theorem setMinMax_refTime (x : TimeGraphE) (a b : ℚ) :
    (setMinMax x a b).m_RefTimeUs = x.m_RefTimeUs := by
  unfold setMinMax needsUpdate getCaptureTimeSpanUs updateCaptureMinMaxTimestamps
  dsimp only
  split <;> split <;> rfl

/-- C8: with the mouse ratio inside the window and a well-ordered window,
`ZoomTime` records the reference time at that ratio; the recombined window
has width `scale × old width` (the left remainder `r·W` and right
remainder `(1−r)·W` each scaled by `1 ± 0.1`), so whenever that recombined
width is below one nanosecond (0.001 µs) the call leaves `m_MinTimeUs` and
`m_MaxTimeUs` unchanged, and otherwise it hands the recombined bounds to
`SetMinMax`. -/
theorem zoomTime_spec (s : TimeGraphE) (v r : ℚ)
    (hr0 : 0 ≤ r) (hr1 : r ≤ 1) (hw : s.m_MinTimeUs ≤ s.m_MaxTimeUs) :
    (zoomTime s v r).m_RefTimeUs
      = s.m_MinTimeUs + r * (s.m_MaxTimeUs - s.m_MinTimeUs)
    ∧ ((if 0 < v then (1:ℚ) + 1/10 else 1 - 1/10)
          * (s.m_MaxTimeUs - s.m_MinTimeUs) < 1/1000 →
        (zoomTime s v r).m_MinTimeUs = s.m_MinTimeUs
        ∧ (zoomTime s v r).m_MaxTimeUs = s.m_MaxTimeUs)
    ∧ ((1:ℚ)/1000 ≤ (if 0 < v then (1:ℚ) + 1/10 else 1 - 1/10)
          * (s.m_MaxTimeUs - s.m_MinTimeUs) →
        zoomTime s v r
          = setMinMax
              { s with
                m_ZoomValue := v
                m_MouseRatio := r
                m_RefTimeUs := s.m_MinTimeUs + r * (s.m_MaxTimeUs - s.m_MinTimeUs) }
              (s.m_MinTimeUs + r * (s.m_MaxTimeUs - s.m_MinTimeUs)
                - (if 0 < v then (1:ℚ) + 1/10 else 1 - 1/10)
                  * (r * (s.m_MaxTimeUs - s.m_MinTimeUs)))
              (s.m_MinTimeUs + r * (s.m_MaxTimeUs - s.m_MinTimeUs)
                + (if 0 < v then (1:ℚ) + 1/10 else 1 - 1/10)
                  * ((1 - r) * (s.m_MaxTimeUs - s.m_MinTimeUs)))) := by
  have hwin : (0:ℚ) ≤ s.m_MaxTimeUs - s.m_MinTimeUs := sub_nonneg.mpr hw
  have hTL : max (s.m_MinTimeUs + r * (s.m_MaxTimeUs - s.m_MinTimeUs) - s.m_MinTimeUs) 0
      = r * (s.m_MaxTimeUs - s.m_MinTimeUs) := by
    have h1 : s.m_MinTimeUs + r * (s.m_MaxTimeUs - s.m_MinTimeUs) - s.m_MinTimeUs
        = r * (s.m_MaxTimeUs - s.m_MinTimeUs) := by ring
    rw [h1]
    exact max_eq_left (mul_nonneg hr0 hwin)
  have hTR : max
      (s.m_MaxTimeUs - (s.m_MinTimeUs + r * (s.m_MaxTimeUs - s.m_MinTimeUs))) 0
      = (1 - r) * (s.m_MaxTimeUs - s.m_MinTimeUs) := by
    have h1 : s.m_MaxTimeUs - (s.m_MinTimeUs + r * (s.m_MaxTimeUs - s.m_MinTimeUs))
        = (1 - r) * (s.m_MaxTimeUs - s.m_MinTimeUs) := by ring
    rw [h1]
    exact max_eq_left (mul_nonneg (by linarith) hwin)
  have hwd : s.m_MinTimeUs + r * (s.m_MaxTimeUs - s.m_MinTimeUs)
        + (if 0 < v then (1:ℚ) + 1/10 else 1 - 1/10)
          * ((1 - r) * (s.m_MaxTimeUs - s.m_MinTimeUs))
      - (s.m_MinTimeUs + r * (s.m_MaxTimeUs - s.m_MinTimeUs)
        - (if 0 < v then (1:ℚ) + 1/10 else 1 - 1/10)
          * (r * (s.m_MaxTimeUs - s.m_MinTimeUs)))
      = (if 0 < v then (1:ℚ) + 1/10 else 1 - 1/10)
          * (s.m_MaxTimeUs - s.m_MinTimeUs) := by ring
  refine ⟨?_, ?_, ?_⟩
  · dsimp only [zoomTime]
    rw [hTL, hTR, hwd]
    split <;> split <;> first | rfl | rw [setMinMax_refTime]
  · intro hlt
    constructor
    · dsimp only [zoomTime]
      rw [hTL, hTR, hwd, if_pos hlt]
    · dsimp only [zoomTime]
      rw [hTL, hTR, hwd, if_pos hlt]
  · intro hge
    dsimp only [zoomTime]
    rw [hTL, hTR, hwd, if_neg (not_lt.mpr hge)]

/-- C8 witness: zooming in at mouse ratio 1/2 on the window [0, 10] — the
hypotheses hold and the reference time lands at 5. -/
theorem zoomTime_spec_witness :
    ((0:ℚ) ≤ 1/2 ∧ (1:ℚ)/2 ≤ 1
      ∧ zoomWitnessTG.m_MinTimeUs ≤ zoomWitnessTG.m_MaxTimeUs)
    ∧ (zoomTime zoomWitnessTG 1 (1/2)).m_RefTimeUs
        = zoomWitnessTG.m_MinTimeUs
          + (1/2) * (zoomWitnessTG.m_MaxTimeUs - zoomWitnessTG.m_MinTimeUs) :=
  ⟨⟨by norm_num, by norm_num, by norm_num [zoomWitnessTG, baseTG]⟩,
    (zoomTime_spec zoomWitnessTG 1 (1/2) (by norm_num) (by norm_num)
      (by norm_num [zoomWitnessTG, baseTG])).1⟩

theorem fpcBox_step_sound (addr t : Nat) (acc : Option Timer × Nat) (box : Timer)
    (h : AccP addr t acc) : AccP addr t (fpcBox addr t acc box) := by
  unfold fpcBox
  split
  · next hc =>
    constructor
    · intro hn
      cases hn
    · intro b hb
      injection hb with hb2
      subst hb2
      exact ⟨rfl, hc.1, hc.2.1⟩
  · exact h

theorem fpcBox_foldl_sound (addr t : Nat) (boxes : List Timer)
    (acc : Option Timer × Nat) (h : AccP addr t acc) :
    AccP addr t (boxes.foldl (fpcBox addr t) acc) := by
  induction boxes generalizing acc with
  | nil => exact h
  | cons box rest ih => exact ih _ (fpcBox_step_sound addr t acc box h)

theorem fpcBox_step_mono (addr t : Nat) (acc : Option Timer × Nat) (box : Timer) :
    acc.2 ≤ (fpcBox addr t acc box).2 := by
  unfold fpcBox
  split
  · next hc => exact le_of_lt hc.2.2
  · exact le_refl _

theorem fpcBox_foldl_mono (addr t : Nat) (boxes : List Timer)
    (acc : Option Timer × Nat) :
    acc.2 ≤ (boxes.foldl (fpcBox addr t) acc).2 := by
  induction boxes generalizing acc with
  | nil => exact le_refl _
  | cons box rest ih =>
    exact le_trans (fpcBox_step_mono addr t acc box) (ih _)

theorem fpcBox_foldl_complete (addr t : Nat) (boxes : List Timer)
    (acc : Option Timer × Nat) :
    ∀ box ∈ boxes, box.m_FunctionAddress = addr → box.m_End < t →
      box.m_End ≤ (boxes.foldl (fpcBox addr t) acc).2 := by
  induction boxes generalizing acc with
  | nil =>
    intro box hm
    simp at hm
  | cons box0 rest ih =>
    intro box hm h1 h2
    rcases List.mem_cons.mp hm with hm | hm
    · subst hm
      have hstep : box.m_End ≤ (fpcBox addr t acc box).2 := by
        unfold fpcBox
        split
        · exact le_refl _
        · next hc =>
          push_neg at hc
          exact hc h1 h2
      exact le_trans hstep (fpcBox_foldl_mono addr t rest _)
    · exact ih _ box hm h1 h2

theorem fpcBlock_sound (addr t : Nat) (acc : Option Timer × Nat) (b : TimerBlockE)
    (h : AccP addr t acc) : AccP addr t (fpcBlock addr t acc b) := by
  unfold fpcBlock
  split
  · exact fpcBox_foldl_sound addr t b.boxes acc h
  · exact h

theorem fpcBlock_mono (addr t : Nat) (acc : Option Timer × Nat) (b : TimerBlockE) :
    acc.2 ≤ (fpcBlock addr t acc b).2 := by
  unfold fpcBlock
  split
  · exact fpcBox_foldl_mono addr t b.boxes acc
  · exact le_refl _

theorem fpcBlock_complete (addr t : Nat) (acc : Option Timer × Nat) (b : TimerBlockE)
    (hwf : blockWF b) :
    ∀ box ∈ b.boxes, box.m_FunctionAddress = addr → box.m_End < t →
      box.m_End ≤ (fpcBlock addr t acc b).2 := by
  intro box hm h1 h2
  unfold fpcBlock
  split
  · exact fpcBox_foldl_complete addr t b.boxes acc box hm h1 h2
  · next hc =>
    simp only [blockIntersects, Bool.and_eq_true, decide_eq_true_eq, not_and_or] at hc
    obtain ⟨hb1, hb2, hb3⟩ := hwf box hm
    rcases hc with hc | hc
    · push_neg at hc
      omega
    · push_neg at hc
      omega

theorem fpcChain_sound (addr t : Nat) (chain : List TimerBlockE)
    (acc : Option Timer × Nat) (h : AccP addr t acc) :
    AccP addr t (chain.foldl (fpcBlock addr t) acc) := by
  induction chain generalizing acc with
  | nil => exact h
  | cons b rest ih => exact ih _ (fpcBlock_sound addr t acc b h)

theorem fpcChain_mono (addr t : Nat) (chain : List TimerBlockE)
    (acc : Option Timer × Nat) :
    acc.2 ≤ (chain.foldl (fpcBlock addr t) acc).2 := by
  induction chain generalizing acc with
  | nil => exact le_refl _
  | cons b rest ih => exact le_trans (fpcBlock_mono addr t acc b) (ih _)

theorem fpcChain_complete (addr t : Nat) (chain : List TimerBlockE)
    (acc : Option Timer × Nat) (hwf : ∀ b ∈ chain, blockWF b) :
    ∀ b ∈ chain, ∀ box ∈ b.boxes, box.m_FunctionAddress = addr → box.m_End < t →
      box.m_End ≤ (chain.foldl (fpcBlock addr t) acc).2 := by
  induction chain generalizing acc with
  | nil =>
    intro b hb
    simp at hb
  | cons b0 rest ih =>
    intro b hb box hbox h1 h2
    rcases List.mem_cons.mp hb with hb | hb
    · subst hb
      exact le_trans
        (fpcBlock_complete addr t acc b (hwf b (List.mem_cons_self _ _)) box hbox h1 h2)
        (fpcChain_mono addr t rest _)
    · exact ih _ (fun x hx => hwf x (List.mem_cons_of_mem _ hx)) b hb box hbox h1 h2

theorem fpcChains_sound (addr t : Nat) (chains : List (List TimerBlockE))
    (acc : Option Timer × Nat) (h : AccP addr t acc) :
    AccP addr t
      (chains.foldl (fun a chain => chain.foldl (fpcBlock addr t) a) acc) := by
  induction chains generalizing acc with
  | nil => exact h
  | cons c rest ih => exact ih _ (fpcChain_sound addr t c acc h)

theorem fpcChains_mono (addr t : Nat) (chains : List (List TimerBlockE))
    (acc : Option Timer × Nat) :
    acc.2 ≤ (chains.foldl (fun a chain => chain.foldl (fpcBlock addr t) a) acc).2 := by
  induction chains generalizing acc with
  | nil => exact le_refl _
  | cons c rest ih => exact le_trans (fpcChain_mono addr t c acc) (ih _)

theorem fpcChains_complete (addr t : Nat) (chains : List (List TimerBlockE))
    (acc : Option Timer × Nat) (hwf : chainsWF chains) :
    ∀ chain ∈ chains, ∀ b ∈ chain, ∀ box ∈ b.boxes,
      box.m_FunctionAddress = addr → box.m_End < t →
        box.m_End
          ≤ (chains.foldl (fun a chain => chain.foldl (fpcBlock addr t) a) acc).2 := by
  induction chains generalizing acc with
  | nil =>
    intro c hc
    simp at hc
  | cons c0 rest ih =>
    intro c hc b hb box hbox h1 h2
    rcases List.mem_cons.mp hc with hc | hc
    · subst hc
      exact le_trans
        (fpcChain_complete addr t c acc (hwf c (List.mem_cons_self _ _)) b hb box hbox h1 h2)
        (fpcChains_mono addr t rest _)
    · exact ih _ (fun x hx => hwf x (List.mem_cons_of_mem _ hx)) c hc b hb box hbox h1 h2

theorem fncBox_step_sound (addr t : Nat) (acc : Option Timer × Nat) (box : Timer)
    (h : AccN addr t acc) : AccN addr t (fncBox addr t acc box) := by
  unfold fncBox
  split
  · next hc =>
    constructor
    · intro hn
      cases hn
    · intro b hb
      injection hb with hb2
      subst hb2
      exact ⟨rfl, hc.1, hc.2.1⟩
  · exact h

theorem fncBox_foldl_sound (addr t : Nat) (boxes : List Timer)
    (acc : Option Timer × Nat) (h : AccN addr t acc) :
    AccN addr t (boxes.foldl (fncBox addr t) acc) := by
  induction boxes generalizing acc with
  | nil => exact h
  | cons box rest ih => exact ih _ (fncBox_step_sound addr t acc box h)

theorem fncBox_step_mono (addr t : Nat) (acc : Option Timer × Nat) (box : Timer) :
    (fncBox addr t acc box).2 ≤ acc.2 := by
  unfold fncBox
  split
  · next hc => exact le_of_lt hc.2.2
  · exact le_refl _

theorem fncBox_foldl_mono (addr t : Nat) (boxes : List Timer)
    (acc : Option Timer × Nat) :
    (boxes.foldl (fncBox addr t) acc).2 ≤ acc.2 := by
  induction boxes generalizing acc with
  | nil => exact le_refl _
  | cons box rest ih =>
    exact le_trans (ih _) (fncBox_step_mono addr t acc box)

theorem fncBox_foldl_complete (addr t : Nat) (boxes : List Timer)
    (acc : Option Timer × Nat) :
    ∀ box ∈ boxes, box.m_FunctionAddress = addr → t < box.m_End →
      (boxes.foldl (fncBox addr t) acc).2 ≤ box.m_End := by
  induction boxes generalizing acc with
  | nil =>
    intro box hm
    simp at hm
  | cons box0 rest ih =>
    intro box hm h1 h2
    rcases List.mem_cons.mp hm with hm | hm
    · subst hm
      have hstep : (fncBox addr t acc box).2 ≤ box.m_End := by
        unfold fncBox
        split
        · exact le_refl _
        · next hc =>
          push_neg at hc
          exact hc h1 h2
      exact le_trans (fncBox_foldl_mono addr t rest _) hstep
    · exact ih _ box hm h1 h2

theorem fncBlock_sound (addr t : Nat) (acc : Option Timer × Nat) (b : TimerBlockE)
    (h : AccN addr t acc) : AccN addr t (fncBlock addr t acc b) := by
  unfold fncBlock
  split
  · exact fncBox_foldl_sound addr t b.boxes acc h
  · exact h

theorem fncBlock_mono (addr t : Nat) (acc : Option Timer × Nat) (b : TimerBlockE) :
    (fncBlock addr t acc b).2 ≤ acc.2 := by
  unfold fncBlock
  split
  · exact fncBox_foldl_mono addr t b.boxes acc
  · exact le_refl _

theorem fncBlock_complete (addr t : Nat) (acc : Option Timer × Nat) (b : TimerBlockE)
    (hwf : blockWF b) :
    ∀ box ∈ b.boxes, box.m_FunctionAddress = addr → t < box.m_End →
      (fncBlock addr t acc b).2 ≤ box.m_End := by
  intro box hm h1 h2
  unfold fncBlock
  split
  · exact fncBox_foldl_complete addr t b.boxes acc box hm h1 h2
  · next hc =>
    simp only [blockIntersects, Bool.and_eq_true, decide_eq_true_eq, not_and_or] at hc
    obtain ⟨hb1, hb2, hb3⟩ := hwf box hm
    rcases hc with hc | hc
    · push_neg at hc
      omega
    · push_neg at hc
      omega

theorem fncChain_sound (addr t : Nat) (chain : List TimerBlockE)
    (acc : Option Timer × Nat) (h : AccN addr t acc) :
    AccN addr t (chain.foldl (fncBlock addr t) acc) := by
  induction chain generalizing acc with
  | nil => exact h
  | cons b rest ih => exact ih _ (fncBlock_sound addr t acc b h)

theorem fncChain_mono (addr t : Nat) (chain : List TimerBlockE)
    (acc : Option Timer × Nat) :
    (chain.foldl (fncBlock addr t) acc).2 ≤ acc.2 := by
  induction chain generalizing acc with
  | nil => exact le_refl _
  | cons b rest ih => exact le_trans (ih _) (fncBlock_mono addr t acc b)

theorem fncChain_complete (addr t : Nat) (chain : List TimerBlockE)
    (acc : Option Timer × Nat) (hwf : ∀ b ∈ chain, blockWF b) :
    ∀ b ∈ chain, ∀ box ∈ b.boxes, box.m_FunctionAddress = addr → t < box.m_End →
      (chain.foldl (fncBlock addr t) acc).2 ≤ box.m_End := by
  induction chain generalizing acc with
  | nil =>
    intro b hb
    simp at hb
  | cons b0 rest ih =>
    intro b hb box hbox h1 h2
    rcases List.mem_cons.mp hb with hb | hb
    · subst hb
      exact le_trans (fncChain_mono addr t rest _)
        (fncBlock_complete addr t acc b (hwf b (List.mem_cons_self _ _)) box hbox h1 h2)
    · exact ih _ (fun x hx => hwf x (List.mem_cons_of_mem _ hx)) b hb box hbox h1 h2

theorem fncChains_sound (addr t : Nat) (chains : List (List TimerBlockE))
    (acc : Option Timer × Nat) (h : AccN addr t acc) :
    AccN addr t
      (chains.foldl (fun a chain => chain.foldl (fncBlock addr t) a) acc) := by
  induction chains generalizing acc with
  | nil => exact h
  | cons c rest ih => exact ih _ (fncChain_sound addr t c acc h)

theorem fncChains_mono (addr t : Nat) (chains : List (List TimerBlockE))
    (acc : Option Timer × Nat) :
    (chains.foldl (fun a chain => chain.foldl (fncBlock addr t) a) acc).2 ≤ acc.2 := by
  induction chains generalizing acc with
  | nil => exact le_refl _
  | cons c rest ih => exact le_trans (ih _) (fncChain_mono addr t c acc)

theorem fncChains_complete (addr t : Nat) (chains : List (List TimerBlockE))
    (acc : Option Timer × Nat) (hwf : chainsWF chains) :
    ∀ chain ∈ chains, ∀ b ∈ chain, ∀ box ∈ b.boxes,
      box.m_FunctionAddress = addr → t < box.m_End →
        (chains.foldl (fun a chain => chain.foldl (fncBlock addr t) a) acc).2
          ≤ box.m_End := by
  induction chains generalizing acc with
  | nil =>
    intro c hc
    simp at hc
  | cons c0 rest ih =>
    intro c hc b hb box hbox h1 h2
    rcases List.mem_cons.mp hc with hc | hc
    · subst hc
      exact le_trans (fncChains_mono addr t rest _)
        (fncChain_complete addr t c acc (hwf c (List.mem_cons_self _ _)) b hb box hbox h1 h2)
    · exact ih _ (fun x hx => hwf x (List.mem_cons_of_mem _ hx)) c hc b hb box hbox h1 h2

/-- C4: `FindPreviousFunctionCall(addr, t)` returns null or a record with
function address `addr` and end time strictly below `t` that is maximal
among all such records in the scanned chains; `FindNextFunctionCall`
returns null or a record with function address `addr` and end time
strictly above `t` that is minimal among all such records — never a record
of a different function.  Requires the block caches to bound their
contents (`chainsWF`). -/
theorem findFunctionCall_spec (chains : List (List TimerBlockE)) (addr t : Nat)
    (hwf : chainsWF chains) :
    (∀ res : Timer, findPreviousFunctionCall chains addr t = some res →
      res.m_FunctionAddress = addr ∧ res.m_End < t
      ∧ ∀ chain ∈ chains, ∀ b ∈ chain, ∀ box ∈ b.boxes,
          box.m_FunctionAddress = addr → box.m_End < t → box.m_End ≤ res.m_End)
    ∧ (∀ res : Timer, findNextFunctionCall chains addr t = some res →
      res.m_FunctionAddress = addr ∧ t < res.m_End
      ∧ ∀ chain ∈ chains, ∀ b ∈ chain, ∀ box ∈ b.boxes,
          box.m_FunctionAddress = addr → t < box.m_End → res.m_End ≤ box.m_End) := by
  constructor
  · intro res hres
    unfold findPreviousFunctionCall at hres
    have hS := fpcChains_sound addr t chains (none, 0)
      ⟨fun _ => rfl, fun b hb => by cases hb⟩
    obtain ⟨hv, h1, h2⟩ := hS.2 res hres
    refine ⟨h1, h2, ?_⟩
    intro chain hc b hb box hbox hm1 hm2
    have hcomp := fpcChains_complete addr t chains (none, 0) hwf chain hc b hb box hbox
      hm1 hm2
    rw [hv] at hcomp
    exact hcomp
  · intro res hres
    unfold findNextFunctionCall at hres
    have hS := fncChains_sound addr t chains (none, UINT64MAX)
      ⟨fun _ => rfl, fun b hb => by cases hb⟩
    obtain ⟨hv, h1, h2⟩ := hS.2 res hres
    refine ⟨h1, h2, ?_⟩
    intro chain hc b hb box hbox hm1 hm2
    have hcomp := fncChains_complete addr t chains (none, UINT64MAX) hwf chain hc b hb box
      hbox hm1 hm2
    rw [hv] at hcomp
    exact hcomp

/-- C4 witness: the chain caches are sound, the previous call before time
6 is the record ending at 3 and the next call after time 6 is the record
ending at 8, and the theorem's guarantees hold there. -/
theorem findFunctionCall_spec_witness :
    (chainsWF c4Chains
      ∧ findPreviousFunctionCall c4Chains 42 6 = some ⟨1, 3, 7, 0, 42, 0, TimerType.regular⟩
      ∧ findNextFunctionCall c4Chains 42 6 = some ⟨4, 8, 7, 0, 42, 0, TimerType.regular⟩)
    ∧ ((∀ res : Timer, findPreviousFunctionCall c4Chains 42 6 = some res →
        res.m_FunctionAddress = 42 ∧ res.m_End < 6
        ∧ ∀ chain ∈ c4Chains, ∀ b ∈ chain, ∀ box ∈ b.boxes,
            box.m_FunctionAddress = 42 → box.m_End < 6 → box.m_End ≤ res.m_End)
      ∧ (∀ res : Timer, findNextFunctionCall c4Chains 42 6 = some res →
        res.m_FunctionAddress = 42 ∧ 6 < res.m_End
        ∧ ∀ chain ∈ c4Chains, ∀ b ∈ chain, ∀ box ∈ b.boxes,
            box.m_FunctionAddress = 42 → 6 < box.m_End → res.m_End ≤ box.m_End)) :=
  ⟨⟨by decide, by decide, by decide⟩, findFunctionCall_spec c4Chains 42 6 (by decide)⟩

theorem mapLookup_mapInsert_ne {α : Type} {k k0 : Nat} (hne : k ≠ k0) (v : α)
    (m : List (Nat × α)) : mapLookup (mapInsert k0 v m) k = mapLookup m k := by
  induction m with
  | nil =>
    have : ¬ k0 = k := fun hc => hne hc.symm
    simp [mapInsert, mapLookup, this]
  | cons q rest ih =>
    simp only [mapInsert]
    by_cases h1 : k0 < q.1
    · rw [if_pos h1]
      have : ¬ k0 = k := fun hc => hne hc.symm
      simp [mapLookup, this]
    · rw [if_neg h1]
      by_cases h2 : k0 = q.1
      · rw [if_pos h2]
        have hqk : ¬ q.1 = k := fun hc => hne (hc ▸ h2).symm
        have hk0k : ¬ k0 = k := fun hc => hne hc.symm
        simp [mapLookup, hqk, hk0k]
      · rw [if_neg h2]
        by_cases h3 : q.1 = k
        · simp [mapLookup, h3]
        · simp [mapLookup, h3, ih]

theorem gocThread_pres (s : TimeGraphE) (tid : Nat) :
    (getOrCreateThreadTrack s tid).2.m_EventCount = s.m_EventCount
    ∧ (getOrCreateThreadTrack s tid).2.m_ThreadCountMap = s.m_ThreadCountMap
    ∧ (getOrCreateThreadTrack s tid).2.m_ThreadFilter = s.m_ThreadFilter
    ∧ (getOrCreateThreadTrack s tid).2.gpu_tracks = s.gpu_tracks
    ∧ (getOrCreateThreadTrack s tid).2.scheduler_track = s.scheduler_track
    ∧ (getOrCreateThreadTrack s tid).2.process_track = s.process_track
    ∧ (getOrCreateThreadTrack s tid).2.eventBuffer = s.eventBuffer := by
  cases hl : mapLookup s.thread_tracks tid <;>
    exact ⟨by simp [getOrCreateThreadTrack, hl], by simp [getOrCreateThreadTrack, hl],
      by simp [getOrCreateThreadTrack, hl], by simp [getOrCreateThreadTrack, hl],
      by simp [getOrCreateThreadTrack, hl], by simp [getOrCreateThreadTrack, hl],
      by simp [getOrCreateThreadTrack, hl]⟩

theorem ExtTT_refl (s : TimeGraphE) : ExtTT s s :=
  ⟨fun _ _ h => h, fun _ _ h => h, fun tid id hn hs => by rw [hn] at hs; cases hs⟩

theorem ExtTT_step (s s2 : TimeGraphE) (tid : Nat) (h2 : TGInv s2) (he : ExtTT s s2) :
    ExtTT s (getOrCreateThreadTrack s2 tid).2 := by
  obtain ⟨e1, e2, e3⟩ := he
  cases hl : mapLookup s2.thread_tracks tid with
  | some id =>
    simp only [getOrCreateThreadTrack, hl]
    exact ⟨e1, e2, e3⟩
  | none =>
    simp only [getOrCreateThreadTrack, hl]
    have hfreshNone : mapLookup s2.store s2.nextId = none := by
      apply mapLookup_none_of_not_mem
      intro hmem
      exact absurd (h2.2.2.1 _ hmem) (lt_irrefl _)
    refine ⟨?_, ?_, ?_⟩
    · intro k v hk
      exact mapLookup_append_some (e1 k v hk)
    · intro tid0 id0 hk
      have hs2 : mapLookup s2.thread_tracks tid0 = some id0 := e2 tid0 id0 hk
      have hne : tid0 ≠ tid := by
        intro hc
        rw [hc, hl] at hs2
        cases hs2
      rw [mapLookup_mapInsert_ne hne]
      exact hs2
    · intro tid0 id0 hn hs
      by_cases hc : tid0 = tid
      · subst hc
        rw [mapLookup_mapInsert_self] at hs
        injection hs with hs
        subst hs
        rw [mapLookup_append_none hfreshNone]
        simp [mapLookup]
      · rw [mapLookup_mapInsert_ne hc] at hs
        exact mapLookup_append_some (e3 tid0 id0 hn hs)

theorem gocFold_inv (s : TimeGraphE) (tids : List Nat) :
    ∀ x : TimeGraphE, TGInv x → ExtTT s x →
      TGInv (tids.foldl (fun acc tid => (getOrCreateThreadTrack acc tid).2) x)
      ∧ ExtTT s (tids.foldl (fun acc tid => (getOrCreateThreadTrack acc tid).2) x) := by
  induction tids with
  | nil => exact fun x hx he => ⟨hx, he⟩
  | cons tid rest ih =>
    intro x hx he
    exact ih _ (gocThread_props x tid hx).1 (ExtTT_step s x tid hx he)

theorem gocFold_pres (tids : List Nat) :
    ∀ x : TimeGraphE,
      (tids.foldl (fun acc tid => (getOrCreateThreadTrack acc tid).2) x).m_EventCount
        = x.m_EventCount
      ∧ (tids.foldl (fun acc tid => (getOrCreateThreadTrack acc tid).2) x).m_ThreadCountMap
        = x.m_ThreadCountMap
      ∧ (tids.foldl (fun acc tid => (getOrCreateThreadTrack acc tid).2) x).m_ThreadFilter
        = x.m_ThreadFilter
      ∧ (tids.foldl (fun acc tid => (getOrCreateThreadTrack acc tid).2) x).gpu_tracks
        = x.gpu_tracks
      ∧ (tids.foldl (fun acc tid => (getOrCreateThreadTrack acc tid).2) x).scheduler_track
        = x.scheduler_track
      ∧ (tids.foldl (fun acc tid => (getOrCreateThreadTrack acc tid).2) x).process_track
        = x.process_track
      ∧ (tids.foldl (fun acc tid => (getOrCreateThreadTrack acc tid).2) x).eventBuffer
        = x.eventBuffer := by
  induction tids with
  | nil => exact fun x => ⟨rfl, rfl, rfl, rfl, rfl, rfl, rfl⟩
  | cons tid rest ih =>
    intro x
    obtain ⟨p1, p2, p3, p4, p5, p6, p7⟩ := gocThread_pres x tid
    obtain ⟨q1, q2, q3, q4, q5, q6, q7⟩ := ih (getOrCreateThreadTrack x tid).2
    exact ⟨q1.trans p1, q2.trans p2, q3.trans p3, q4.trans p4, q5.trans p5,
      q6.trans p6, q7.trans p7⟩

theorem finishStep_contrib (s x : TimeGraphE) (tid : Nat) (hs : TGInv s) (hx : TGInv x)
    (he : ExtTT s x) :
    (if trackIsEmpty (getOrCreateThreadTrack x tid).2 (getOrCreateThreadTrack x tid).1
      then ([] : List Nat) else [(getOrCreateThreadTrack x tid).1])
    = specContrib s tid := by
  unfold specContrib
  cases hsl : mapLookup s.thread_tracks tid with
  | some id =>
    have hxl : mapLookup x.thread_tracks tid = some id := he.2.1 tid id hsl
    have hg : getOrCreateThreadTrack x tid = (id, x) := by
      simp [getOrCreateThreadTrack, hxl]
    rw [hg]
    have hid_mem : id ∈ s.store.map Prod.fst :=
      hs.2.2.2.2.1 (tid, id) (mapLookup_mem hsl)
    obtain ⟨v, hv⟩ := mapLookup_some_of_mem_keys hid_mem
    have hxv : mapLookup x.store id = some v := he.1 id v hv
    have hemp : trackIsEmpty x id = trackIsEmpty s id := by
      simp [trackIsEmpty, trackTimers, hv, hxv]
    rw [hemp]
  | none =>
    cases hxl : mapLookup x.thread_tracks tid with
    | some id2 =>
      have hg : getOrCreateThreadTrack x tid = (id2, x) := by
        simp [getOrCreateThreadTrack, hxl]
      rw [hg]
      have hfresh : mapLookup x.store id2 = some freshTrack := he.2.2 tid id2 hsl hxl
      have hemp : trackIsEmpty x id2 = true := by
        simp [trackIsEmpty, trackTimers, hfresh, freshTrack]
      rw [hemp]
      simp
    | none =>
      have hfreshNone : mapLookup x.store x.nextId = none := by
        apply mapLookup_none_of_not_mem
        intro hmem
        exact absurd (hx.2.2.1 _ hmem) (lt_irrefl _)
      have hemp : trackIsEmpty (getOrCreateThreadTrack x tid).2
          (getOrCreateThreadTrack x tid).1 = true := by
        simp only [getOrCreateThreadTrack, hxl]
        simp [trackIsEmpty, trackTimers, mapLookup_append_none hfreshNone, mapLookup,
          freshTrack]
      rw [hemp]
      simp

theorem finishFold_spec (s : TimeGraphE) (hs : TGInv s) (ids : List Nat) :
    ∀ (acc0 : List Nat) (x : TimeGraphE), TGInv x → ExtTT s x →
      (ids.foldl
        (fun acc tid =>
          let g := getOrCreateThreadTrack acc.2 tid
          (if trackIsEmpty g.2 g.1 then acc.1 else acc.1 ++ [g.1], g.2))
        (acc0, x)).1
      = acc0 ++ ids.flatMap (specContrib s) := by
  induction ids with
  | nil =>
    intro acc0 x _ _
    simp
  | cons tid rest ih =>
    intro acc0 x hx he
    rw [List.foldl_cons]
    dsimp only
    have hcontrib := finishStep_contrib s x tid hs hx he
    have hx2 : TGInv (getOrCreateThreadTrack x tid).2 := (gocThread_props x tid hx).1
    have he2 : ExtTT s (getOrCreateThreadTrack x tid).2 := ExtTT_step s x tid hx he
    rw [ih _ _ hx2 he2]
    rw [List.flatMap_cons]
    rw [← hcontrib]
    by_cases hB : trackIsEmpty (getOrCreateThreadTrack x tid).2
        (getOrCreateThreadTrack x tid).1
    · rw [if_pos hB, if_pos hB]
      simp
    · rw [if_neg hB, if_neg hB]
      simp

theorem sortTracksPhase1_facts (s : TimeGraphE) (hInv : TGInv s) :
    TGInv (sortTracksPhase1 s) ∧ ExtTT s (sortTracksPhase1 s)
    ∧ (sortTracksPhase1 s).m_EventCount = specEventCount s
    ∧ (sortTracksPhase1 s).m_ThreadCountMap = s.m_ThreadCountMap
    ∧ (sortTracksPhase1 s).m_ThreadFilter = s.m_ThreadFilter
    ∧ (sortTracksPhase1 s).gpu_tracks = s.gpu_tracks
    ∧ (sortTracksPhase1 s).scheduler_track = s.scheduler_track
    ∧ (sortTracksPhase1 s).process_track = s.process_track := by
  have hsm : TGInv { s with m_EventCount :=
      (ebTids s.eventBuffer).map fun tid => (tid, ebCount s.eventBuffer tid) } := by
    obtain ⟨h1, h2, h3, h4, h5, h6⟩ := hInv
    exact ⟨h1, h2, h3, h4, h5, h6⟩
  have hext : ExtTT s { s with m_EventCount :=
      (ebTids s.eventBuffer).map fun tid => (tid, ebCount s.eventBuffer tid) } := by
    refine ⟨fun _ _ h => h, fun _ _ h => h, fun tid id hn hs => ?_⟩
    rw [hn] at hs
    cases hs
  obtain ⟨hI, hE⟩ := gocFold_inv s (ebTids s.eventBuffer) _ hsm hext
  obtain ⟨p1, p2, p3, p4, p5, p6, p7⟩ := gocFold_pres (ebTids s.eventBuffer)
    { s with m_EventCount :=
      (ebTids s.eventBuffer).map fun tid => (tid, ebCount s.eventBuffer tid) }
  exact ⟨hI, hE, p1, p2, p3, p4, p5, p6⟩

theorem trackIsEmpty_ext (s x : TimeGraphE) (he : ExtTT s x) (id : Nat)
    (hmem : id ∈ s.store.map Prod.fst) : trackIsEmpty x id = trackIsEmpty s id := by
  obtain ⟨v, hv⟩ := mapLookup_some_of_mem_keys hmem
  simp [trackIsEmpty, trackTimers, hv, he.1 id v hv]

theorem insertByValueDesc_mem (p q : Nat × Nat) (l : List (Nat × Nat)) :
    q ∈ insertByValueDesc p l ↔ q = p ∨ q ∈ l := by
  induction l with
  | nil => simp [insertByValueDesc]
  | cons r rest ih =>
    simp only [insertByValueDesc]
    by_cases h1 : r.2 < p.2
    · rw [if_pos h1]
      simp [List.mem_cons]
    · rw [if_neg h1]
      simp only [List.mem_cons, ih]
      tauto

theorem insertByValueDesc_pairwise (p : Nat × Nat) (l : List (Nat × Nat))
    (h : List.Pairwise (fun a b : Nat × Nat => b.2 ≤ a.2) l) :
    List.Pairwise (fun a b : Nat × Nat => b.2 ≤ a.2) (insertByValueDesc p l) := by
  induction l with
  | nil => simp [insertByValueDesc]
  | cons r rest ih =>
    simp only [insertByValueDesc]
    rcases List.pairwise_cons.mp h with ⟨hr, hrest⟩
    by_cases h1 : r.2 < p.2
    · rw [if_pos h1]
      refine List.pairwise_cons.mpr ⟨?_, h⟩
      intro x hx
      rcases List.mem_cons.mp hx with hx | hx
      · rw [hx]
        exact le_of_lt h1
      · exact le_trans (hr x hx) (le_of_lt h1)
    · rw [if_neg h1]
      refine List.pairwise_cons.mpr ⟨?_, ih hrest⟩
      intro x hx
      rcases (insertByValueDesc_mem p x rest).mp hx with hx | hx
      · rw [hx]
        exact le_of_not_lt h1
      · exact hr x hx

theorem reverseValueSort_pairwise (l : List (Nat × Nat)) :
    List.Pairwise (fun a b : Nat × Nat => b.2 ≤ a.2) (reverseValueSort l) := by
  induction l with
  | nil => simp [reverseValueSort]
  | cons p rest ih => exact insertByValueDesc_pairwise p _ ih

theorem reverseValueSort_mem (l : List (Nat × Nat)) (q : Nat × Nat) :
    q ∈ reverseValueSort l ↔ q ∈ l := by
  induction l with
  | nil => simp [reverseValueSort]
  | cons p rest ih =>
    show q ∈ insertByValueDesc p (reverseValueSort rest) ↔ _
    rw [insertByValueDesc_mem, ih]
    simp [List.mem_cons]

/-- C3: whenever `SortTracks` performs a reorder and no name filter is
set, the resulting display order is exactly the scheduler track if
non-empty, then every gpu track, then the process-aggregate track (thread
id 0) if non-empty, then the thread tracks of the computed id list —
threads with instrumented calls ranked by descending call count, followed
by threads not already included ranked by descending sampled-event count,
all other threads excluded and empty thread tracks dropped.  The two
ranking segments are sorted by descending count and every listed id is a
non-zero thread from one of the two sources. -/
theorem sortTracks_order_spec (s : TimeGraphE) (hInv : TGInv s)
    (hproc : ∃ pid ∈ s.store.map Prod.fst, s.process_track = some pid)
    (hfilter : s.m_ThreadFilter = emptyStr) :
    (sortTracks s true).sorted_tracks = displaySpec s
    ∧ List.Pairwise (fun a b : Nat × Nat => b.2 ≤ a.2)
        (reverseValueSort s.m_ThreadCountMap)
    ∧ List.Pairwise (fun a b : Nat × Nat => b.2 ≤ a.2)
        (reverseValueSort (specEventCount s))
    ∧ (∀ tid ∈ specThreadIds s,
        tid ≠ 0 ∧ (tid ∈ s.m_ThreadCountMap.map Prod.fst ∨ tid ∈ ebTids s.eventBuffer)) := by
  obtain ⟨hI1, hE1, hEC, hTC, hTF, hGPU, hSCH, hPRO⟩ := sortTracksPhase1_facts s hInv
  refine ⟨?_, reverseValueSort_pairwise _, reverseValueSort_pairwise _, ?_⟩
  · show (sortTracksReorder (sortTracksPhase1 s)).sorted_tracks = displaySpec s
    unfold sortTracksReorder
    have hcond : ¬ ((sortTracksPhase1 s).m_ThreadFilter ≠ emptyStr) := by
      rw [hTF, hfilter]
      simp
    dsimp only
    rw [if_neg hcond]
    unfold sortTracksFinish
    dsimp only
    have hids : computedThreadIds (sortTracksPhase1 s) = specThreadIds s := by
      unfold computedThreadIds specThreadIds specEventCount
      rw [hEC, hTC]
      rfl
    rw [hids]
    have hfold := finishFold_spec s hInv (specThreadIds s) [] (sortTracksPhase1 s) hI1 hE1
    rw [hfold, List.nil_append]
    obtain ⟨sid, hsidmem, hsid⟩ := hInv.2.2.2.1
    obtain ⟨pid, hpidmem, hpid⟩ := hproc
    rw [hSCH, hsid, hPRO, hpid, hGPU]
    unfold displaySpec
    rw [hsid, hpid]
    dsimp only
    rw [trackIsEmpty_ext s _ hE1 sid hsidmem, trackIsEmpty_ext s _ hE1 pid hpidmem]
  · intro tid htid
    unfold specThreadIds at htid
    rcases List.mem_append.mp htid with h | h
    · obtain ⟨p, hp, hpeq⟩ := List.mem_map.mp h
      obtain ⟨hpmem, hpne⟩ := List.mem_filter.mp hp
      have hpl : p ∈ s.m_ThreadCountMap := (reverseValueSort_mem _ _).mp hpmem
      constructor
      · rw [← hpeq]
        exact of_decide_eq_true hpne
      · left
        rw [← hpeq]
        exact List.mem_map_of_mem Prod.fst hpl
    · obtain ⟨p, hp, hpeq⟩ := List.mem_map.mp h
      obtain ⟨hpmem, hpcond⟩ := List.mem_filter.mp hp
      have hpl : p ∈ specEventCount s := (reverseValueSort_mem _ _).mp hpmem
      have hpcond2 : decide (p.1 ≠ 0) = true
          ∧ (mapLookup s.m_ThreadCountMap p.1).isNone = true := by
        simpa using hpcond
      obtain ⟨hpne, _⟩ := hpcond2
      constructor
      · rw [← hpeq]
        exact of_decide_eq_true hpne
      · right
        unfold specEventCount at hpl
        obtain ⟨tid2, htid2, heq2⟩ := List.mem_map.mp hpl
        rw [← hpeq, ← heq2]
        exact htid2

/-- C3 witness: the hypotheses hold on a concrete graph with one busy
thread, and the computed display order there is exactly the one non-empty
thread track (scheduler and process tracks being empty). -/
theorem sortTracks_order_spec_witness :
    (TGInv c3WitnessTG
      ∧ (∃ pid ∈ c3WitnessTG.store.map Prod.fst, c3WitnessTG.process_track = some pid)
      ∧ c3WitnessTG.m_ThreadFilter = emptyStr
      ∧ displaySpec c3WitnessTG = [2])
    ∧ (sortTracks c3WitnessTG true).sorted_tracks = displaySpec c3WitnessTG :=
  ⟨⟨by decide, by decide, by decide, by decide⟩,
    (sortTracks_order_spec c3WitnessTG (by decide) (by decide) (by decide)).1⟩

/-- C7 counterexample: with the filter "a b" and thread 5's track named
"ab" (matching both tokens), the filter loop pushes the id once per
matching token — the retained list is [5, 5], and the display built from
it repeats the track — so "each retained id appearing once" is false. -/
theorem sortTracks_filter_duplicate_counterexample :
    (filterThreadIds c7TG [5] (strTokens c7TG.m_ThreadFilter)).1 = [5, 5]
    ∧ (sortTracks c7TG true).sorted_tracks = [2, 2]
    ∧ ¬ ((filterThreadIds c7TG [5] (strTokens c7TG.m_ThreadFilter)).1.count 5 = 1) :=
  ⟨by decide, by decide, by decide⟩

theorem tokFold (nm : String) (tid : Nat) (toks : List String) :
    ∀ acc0 : List Nat,
      toks.foldl (fun l tok => if strContainsStr nm tok then l ++ [tid] else l) acc0
      = acc0 ++ (toks.filter fun tok => strContainsStr nm tok).map fun _ => tid := by
  induction toks with
  | nil =>
    intro acc0
    simp
  | cons tok rest ih =>
    intro acc0
    rw [List.foldl_cons]
    by_cases hc : strContainsStr nm tok
    · rw [if_pos hc, ih, List.filter_cons_of_pos (by exact hc), List.map_cons]
      simp
    · rw [if_neg hc, ih, List.filter_cons_of_neg (by simpa using hc)]

/-- C7 amended: when every listed id has a registered track, the filter
loop leaves the state unchanged and retains, in the original sorted order,
each id once per filter token its track's display name contains; an id is
retained at all exactly when its name contains at least one token. -/
theorem filterThreadIds_spec (s : TimeGraphE) (ids : List Nat) (toks : List String)
    (hreg : ∀ tid ∈ ids, (mapLookup s.thread_tracks tid).isSome = true) :
    (filterThreadIds s ids toks).2 = s
    ∧ (filterThreadIds s ids toks).1
        = ids.flatMap (fun tid =>
            (toks.filter fun tok => strContainsStr (threadTrackName s tid) tok).map
              fun _ => tid)
    ∧ ∀ tid : Nat, tid ∈ (filterThreadIds s ids toks).1 ↔
        tid ∈ ids ∧ ∃ tok ∈ toks, strContainsStr (threadTrackName s tid) tok = true := by
  have main : ∀ (l : List Nat) (acc0 : List Nat),
      (∀ tid ∈ l, (mapLookup s.thread_tracks tid).isSome = true) →
      (l.foldl
        (fun acc tid =>
          let g := getOrCreateThreadTrack acc.2 tid
          (toks.foldl
            (fun lst tok => if strContainsStr (trackName g.2 g.1) tok then lst ++ [tid]
              else lst)
            acc.1,
           g.2))
        (acc0, s))
      = (acc0 ++ l.flatMap (fun tid =>
          (toks.filter fun tok => strContainsStr (threadTrackName s tid) tok).map
            fun _ => tid), s) := by
    intro l
    induction l with
    | nil =>
      intro acc0 _
      simp
    | cons tid rest ih =>
      intro acc0 hl
      rw [List.foldl_cons]
      have hsome := hl tid (List.mem_cons_self _ _)
      obtain ⟨id, hid⟩ := Option.isSome_iff_exists.mp hsome
      have hg : getOrCreateThreadTrack s tid = (id, s) := by
        simp [getOrCreateThreadTrack, hid]
      dsimp only
      rw [hg]
      rw [tokFold (trackName s id) tid toks acc0]
      rw [ih _ (fun x hx => hl x (List.mem_cons_of_mem _ hx))]
      rw [List.flatMap_cons]
      have hnm : threadTrackName s tid = trackName s id := by
        unfold threadTrackName
        rw [hid]
      rw [hnm, List.append_assoc]
  obtain hm := main ids [] hreg
  refine ⟨?_, ?_, ?_⟩
  · show (ids.foldl _ ([], s)).2 = s
    rw [hm]
  · show (ids.foldl _ ([], s)).1 = _
    rw [hm]
    simp
  · intro tid
    show tid ∈ (ids.foldl _ ([], s)).1 ↔ _
    rw [hm]
    simp only [List.nil_append, List.mem_flatMap, List.mem_map, List.mem_filter]
    constructor
    · rintro ⟨tid2, htid2, tok, ⟨htokmem, htokc⟩, heq⟩
      subst heq
      exact ⟨htid2, tok, htokmem, htokc⟩
    · rintro ⟨htid, tok, htokmem, htokc⟩
      exact ⟨tid, htid, tok, ⟨htokmem, htokc⟩, rfl⟩

/-- C7 witness: on the concrete graph, thread 5 is registered and the
amended description matches — [5, 5] for the double-matching name. -/
theorem filterThreadIds_spec_witness :
    (∀ tid ∈ [5], (mapLookup c7TG.thread_tracks tid).isSome = true)
    ∧ (filterThreadIds c7TG [5] (strTokens c7TG.m_ThreadFilter)).1
        = [5].flatMap (fun tid =>
            ((strTokens c7TG.m_ThreadFilter).filter fun tok =>
              strContainsStr (threadTrackName c7TG tid) tok).map fun _ => tid) :=
  ⟨by decide,
    (filterThreadIds_spec c7TG [5] (strTokens c7TG.m_ThreadFilter) (by decide)).2.1⟩
